import Mathlib

/-!
Shallow embedding of the per-tablet Raft replication core of yugabyte-db
(src/yb/consensus/raft_consensus.cc, src/yb/consensus/consensus_peers.cc,
src/yb/tablet/preparer.cc, src/yb/tablet/tablet_peer.cc) together with the
parts of ReplicaState (declared in src/yb/consensus/replica_state.h, whose
implementation file is not part of this slice) modelled from the
specification.  Machine integers (int64_t) are modelled as `Int`; protobuf
messages become structures; `Status` results become explicit sum types.
-/

namespace YB

/-- OpId is a (term, index) pair of 64-bit integers (consensus.proto).  The
"minimum" sentinel has term = 0, index = 0. -/
structure OpId where
  term : Int
  index : Int
deriving DecidableEq, Repr

/-- Minimum op id sentinel (opid_util: MinimumOpId). -/
def minimumOpId : OpId := ⟨0, 0⟩

/-- Modelled from the spec: total order on OpId is lexicographic, term then
index (opid_util OpIdLessThan; opid_util.cc is outside this slice). -/
def opIdLessThan (a b : OpId) : Bool :=
  if a.term ≠ b.term then a.term < b.term else a.index < b.index

/-- Modelled from the spec: OpIdEquals compares both components
(opid_util.cc is outside this slice). -/
def opIdEquals (a b : OpId) : Bool :=
  a.term = b.term ∧ a.index = b.index

/-- Modelled from the spec: CopyIfOpIdLessThan(toCompare, target) overwrites
target with toCompare when toCompare is lexicographically smaller
(opid_util.cc is outside this slice). -/
def copyIfOpIdLessThan (toCompare target : OpId) : OpId :=
  if opIdLessThan toCompare target then toCompare else target

/-- Lexicographic comparison as a Prop for statements. -/
def opIdLe (a b : OpId) : Prop :=
  a.term < b.term ∨ (a.term = b.term ∧ a.index ≤ b.index)

instance (a b : OpId) : Decidable (opIdLe a b) :=
  inferInstanceAs (Decidable
    (a.term < b.term ∨ (a.term = b.term ∧ a.index ≤ b.index)))

/-! ## C7: TabletPeer::GetEarliestNeededLogIndex (src/yb/tablet/tablet_peer.cc) -/

/-- Result of Consensus::GetLastOpId(COMMITTED_OPID) as observed by
GetEarliestNeededLogIndex: an index, NotFound (local consensus), or another
error that is propagated. -/
inductive CommittedOpIdResult where
  | found (index : Int)
  | notFound
  | otherError
deriving DecidableEq, Repr

/-- Environment read by TabletPeer::GetEarliestNeededLogIndex: the latest log
entry, the log-anchor registry minimum (NotFound encoded as none), the op ids
of in-flight operation drivers (none when the driver has no op id assigned
yet), the transaction coordinator PrepareGC horizon (none when the tablet has
no coordinator), the last committed write index and max-persistent op id of
the storage engine (none when MaxPersistentOpId fails), and the committed op
id lookup result. -/
structure GcEnv where
  latestEntryIndex : Int
  anchorMin : Option Int
  driverOpIds : List (Option Int)
  coordinatorPrepareGC : Option Int
  lastCommittedWriteIndex : Int
  maxPersistentIndex : Option Int
  committedOpId : CommittedOpIdResult
deriving Repr

/-- Straight translation of TabletPeer::GetEarliestNeededLogIndex
(tablet_peer.cc lines 580-642).  `none` models a non-OK Status return. -/
def getEarliestNeededLogIndex (env : GcEnv) : Option Int :=
  let m0 := env.latestEntryIndex
  if m0 = 0 then some m0 else
  let m1 := match env.anchorMin with
    | some a => min m0 a
    | none => m0
  let m2 := env.driverOpIds.foldl
    (fun acc o => match o with
      | some i => min acc i
      | none => acc) m1
  let m3 := match env.coordinatorPrepareGC with
    | some gc => min m2 gc
    | none => m2
  match env.maxPersistentIndex with
  | none => none
  | some p =>
    let m4 := if p < env.lastCommittedWriteIndex then min m3 p else m3
    match env.committedOpId with
    | CommittedOpIdResult.otherError => none
    | CommittedOpIdResult.notFound => some m4
    | CommittedOpIdResult.found c => some (min m4 c)

/-- The list of candidate indices enumerated by the C7 claim, in order: the
latest entry's index, the registry minimum if any anchor exists, the assigned
driver op ids, the coordinator PrepareGC horizon if a coordinator exists, the
max-persistent index when it is strictly below the last committed write
index, and the committed op id's index when known. -/
def earliestNeededCandidates (env : GcEnv) (p : Int) : List Int :=
  [env.latestEntryIndex]
    ++ (match env.anchorMin with | some a => [a] | none => [])
    ++ env.driverOpIds.filterMap id
    ++ (match env.coordinatorPrepareGC with | some gc => [gc] | none => [])
    ++ (if p < env.lastCommittedWriteIndex then [p] else [])
    ++ (match env.committedOpId with
        | CommittedOpIdResult.found c => [c]
        | _ => [])

/-- Minimum of a list of integers starting from a seed. -/
def listMinFrom (seed : Int) (l : List Int) : Int :=
  l.foldl min seed

theorem foldl_min_filterMap (l : List (Option Int)) (acc : Int) :
    l.foldl (fun acc o => match o with
      | some i => min acc i
      | none => acc) acc = (l.filterMap id).foldl min acc := by
  induction l generalizing acc with
  | nil => rfl
  | cons o t ih =>
    cases o with
    | none => simpa [List.filterMap_cons] using ih acc
    | some i => simpa [List.filterMap_cons] using ih (min acc i)

/-- C7: GetEarliestNeededLogIndex returns the minimum of the latest log
entry's index (alone when the log is empty), the earliest registered anchor
when any anchor exists, the lowest assigned op id over in-flight operation
drivers, the transaction coordinator's PrepareGC horizon when a coordinator
exists, the max-persistent index when strictly below the last committed
write index, and the committed op id's index. -/
theorem getEarliestNeededLogIndex_is_min (env : GcEnv) (p : Int)
    (hp : env.maxPersistentIndex = some p)
    (hc : env.committedOpId ≠ CommittedOpIdResult.otherError) :
    getEarliestNeededLogIndex env =
      some (if env.latestEntryIndex = 0 then env.latestEntryIndex
            else listMinFrom env.latestEntryIndex (earliestNeededCandidates env p)) := by
  unfold getEarliestNeededLogIndex earliestNeededCandidates listMinFrom
  by_cases h0 : env.latestEntryIndex = 0
  · simp [h0]
  · simp only [h0, if_false, hp]
    rw [foldl_min_filterMap]
    cases hco : env.committedOpId with
    | otherError => exact absurd hco hc
    | notFound =>
      cases env.anchorMin <;> cases env.coordinatorPrepareGC <;>
        by_cases hlt : p < env.lastCommittedWriteIndex <;>
        simp [hlt, List.foldl_append, min_assoc, min_comm, min_left_comm]
    | found c =>
      cases env.anchorMin <;> cases env.coordinatorPrepareGC <;>
        by_cases hlt : p < env.lastCommittedWriteIndex <;>
        simp [hlt, List.foldl_append, min_assoc, min_comm, min_left_comm]

/-- Witness for C7 at a concrete environment. -/
theorem getEarliestNeededLogIndex_is_min_witness :
    getEarliestNeededLogIndex
      { latestEntryIndex := 20, anchorMin := some 7,
        driverOpIds := [some 12, none, some 9],
        coordinatorPrepareGC := some 15, lastCommittedWriteIndex := 11,
        maxPersistentIndex := some 5,
        committedOpId := CommittedOpIdResult.found 18 } = some 5 := by
  have h := getEarliestNeededLogIndex_is_min
    { latestEntryIndex := 20, anchorMin := some 7,
      driverOpIds := [some 12, none, some 9],
      coordinatorPrepareGC := some 15, lastCommittedWriteIndex := 11,
      maxPersistentIndex := some 5,
      committedOpId := CommittedOpIdResult.found 18 } 5 rfl (by decide)
  simpa [earliestNeededCandidates, listMinFrom] using h

/-! ## C6: PreparerImpl::ProcessAndClearLeaderSideBatch (src/yb/tablet/preparer.cc) -/

/-- Environment of a Preparer flush: the deterministic outcome of
OperationDriver::PrepareAndStart for each item (none = OK, some s = failure
with status s) and of Consensus::ReplicateBatch for each sub-batch.  Items
are identified by naturals; statuses by naturals. -/
structure PreparerEnv where
  prepare : Nat → Option Nat
  replicate : List Nat → Option Nat

/-- Observable outcome of a flush: the order in which PrepareAndStart was
invoked, the arguments of every ReplicateBatch call, and every
HandleFailure(item, status) invocation in order. -/
structure FlushResult where
  prepared : List Nat
  replicateCalls : List (List Nat)
  failed : List (Nat × Nat)
deriving DecidableEq, Repr

/-- Translation of PreparerImpl::ReplicateSubBatch (preparer.cc lines
261-297): no-op on an empty range; otherwise call ReplicateBatch and, if it
fails, treat every item of the sub-batch as failed with that status. -/
def replicateSubBatch (env : PreparerEnv) (sub : List Nat) (acc : FlushResult) :
    FlushResult :=
  if sub.isEmpty then acc
  else match env.replicate sub with
    | none => { acc with replicateCalls := acc.replicateCalls ++ [sub] }
    | some s =>
      { acc with replicateCalls := acc.replicateCalls ++ [sub],
                 failed := acc.failed ++ sub.map (fun i => (i, s)) }

/-- Loop body of PreparerImpl::ProcessAndClearLeaderSideBatch (preparer.cc
lines 222-259): `sub` is the window from replication_subbatch_begin to
replication_subbatch_end. -/
def processLoop (env : PreparerEnv) : List Nat → List Nat → FlushResult → FlushResult
  | [], sub, acc => replicateSubBatch env sub acc
  | i :: rest, sub, acc =>
    let acc := { acc with prepared := acc.prepared ++ [i] }
    match env.prepare i with
    | none => processLoop env rest (sub ++ [i]) acc
    | some s =>
      let acc1 := replicateSubBatch env sub acc
      processLoop env rest [] { acc1 with failed := acc1.failed ++ [(i, s)] }

/-- Translation of PreparerImpl::ProcessAndClearLeaderSideBatch on a batch. -/
def processAndClearLeaderSideBatch (env : PreparerEnv) (batch : List Nat) :
    FlushResult :=
  processLoop env batch [] ⟨[], [], []⟩

/-- Decomposition following the words of the C6 claim: the batch splits into
chunks, each a maximal run of consecutively successful items optionally
terminated by the failing item that ended the run; the final chunk has no
terminating failure. -/
def specChunks (env : PreparerEnv) : List Nat → List (List Nat × Option Nat)
  | [] => [([], none)]
  | i :: rest =>
    if env.prepare i = none then
      match specChunks env rest with
      | (run, f) :: cs => (i :: run, f) :: cs
      | [] => [([i], none)]
    else
      ([], some i) :: specChunks env rest

/-- Sub-batches per the claim: the nonempty maximal success runs. -/
def specCalls (env : PreparerEnv) (items : List Nat) : List (List Nat) :=
  ((specChunks env items).map Prod.fst).filter (fun r => ¬ r.isEmpty)

/-- Failure handler invocations produced by one chunk: items of the run when
its ReplicateBatch fails, then the prepare-failed item with its own status. -/
def chunkFailures (env : PreparerEnv) (c : List Nat × Option Nat) :
    List (Nat × Nat) :=
  (if c.1.isEmpty then []
   else match env.replicate c.1 with
     | some s => c.1.map (fun i => (i, s))
     | none => [])
  ++ (match c.2 with
      | some i => match env.prepare i with
        | some s => [(i, s)]
        | none => []
      | none => [])

/-- Failure handler invocations per the claim, chunk by chunk. -/
def specFailed (env : PreparerEnv) (items : List Nat) : List (Nat × Nat) :=
  ((specChunks env items).map (chunkFailures env)).flatten

/-- Prepend a pending success-run onto the first chunk. -/
def prependHead (sub : List Nat) :
    List (List Nat × Option Nat) → List (List Nat × Option Nat)
  | [] => [(sub, none)]
  | (run, f) :: cs => (sub ++ run, f) :: cs

theorem specChunks_cons (env : PreparerEnv) (i : Nat) (rest : List Nat) :
    specChunks env (i :: rest) =
      (if env.prepare i = none then
        match specChunks env rest with
        | (run, f) :: cs => (i :: run, f) :: cs
        | [] => [([i], none)]
      else ([], some i) :: specChunks env rest) := rfl

theorem specChunks_ne_nil (env : PreparerEnv) (items : List Nat) :
    specChunks env items ≠ [] := by
  cases items with
  | nil => simp [specChunks]
  | cons i rest =>
    unfold specChunks
    by_cases h : env.prepare i = none
    · simp only [h, if_true]
      cases specChunks env rest with
      | nil => simp
      | cons c cs => cases c; simp
    · simp [h]

theorem prependHead_nil (env : PreparerEnv) (cs : List (List Nat × Option Nat)) :
    ((prependHead [] cs).map Prod.fst).filter (fun r => ¬ r.isEmpty) =
        (cs.map Prod.fst).filter (fun r => ¬ r.isEmpty) ∧
    ((prependHead [] cs).map (chunkFailures env)).flatten =
        (cs.map (chunkFailures env)).flatten := by
  cases cs with
  | nil => simp [prependHead, chunkFailures]
  | cons c t => cases c; simp [prependHead]

theorem processLoop_eq_spec (env : PreparerEnv) (items : List Nat) :
    ∀ (sub : List Nat) (acc : FlushResult),
    processLoop env items sub acc =
      { prepared := acc.prepared ++ items,
        replicateCalls := acc.replicateCalls ++
          (((prependHead sub (specChunks env items)).map Prod.fst).filter
            (fun r => ¬ r.isEmpty)),
        failed := acc.failed ++
          ((prependHead sub (specChunks env items)).map (chunkFailures env)).flatten } := by
  induction items with
  | nil =>
    intro sub acc
    simp only [processLoop, specChunks, prependHead, replicateSubBatch,
      chunkFailures, List.map, List.flatten, List.append_nil]
    by_cases hs : sub.isEmpty
    · simp [hs, List.filter]
    · cases hr : env.replicate sub <;>
        simp [hs, hr, List.filter]
  | cons i rest ih =>
    intro sub acc
    unfold processLoop
    cases hp : env.prepare i with
    | none =>
      dsimp only
      rw [ih (sub ++ [i])]
      have hchunks : prependHead sub (specChunks env (i :: rest)) =
          prependHead (sub ++ [i]) (specChunks env rest) := by
        rw [specChunks_cons]
        simp only [hp, if_true]
        cases hc : specChunks env rest with
        | nil => simp [prependHead]
        | cons c cs => cases c; simp [prependHead]
      rw [← hchunks]
      simp
    | some s =>
      dsimp only
      rw [ih [], (prependHead_nil env (specChunks env rest)).1,
        (prependHead_nil env (specChunks env rest)).2]
      have hchunks : specChunks env (i :: rest) =
          ([], some i) :: specChunks env rest := by
        rw [specChunks_cons]
        simp [hp]
      rw [hchunks]
      by_cases hs : sub.isEmpty
      · have hsub : sub = [] := by simpa using hs
        subst hsub
        simp [replicateSubBatch, prependHead, chunkFailures, hp, List.filter]
      · cases hr : env.replicate sub <;>
          simp [replicateSubBatch, hs, hr, prependHead, chunkFailures, hp,
            List.filter, List.append_assoc]

/-- C6: the Preparer flush calls PrepareAndStart on each item in order,
replicates exactly the maximal runs of consecutively successful items (the
run accumulated at each first failure and the tail run), invokes the failed
item's failure handler after replicating the accumulated sub-batch, and when
ReplicateBatch fails treats every item of that sub-batch as failed with the
replication status. -/
theorem processAndClearLeaderSideBatch_spec (env : PreparerEnv)
    (items : List Nat) :
    processAndClearLeaderSideBatch env items =
      ⟨items, specCalls env items, specFailed env items⟩ := by
  unfold processAndClearLeaderSideBatch specCalls specFailed
  rw [processLoop_eq_spec]
  have h : prependHead [] (specChunks env items) = specChunks env items := by
    cases hc : specChunks env items with
    | nil => exact absurd hc (specChunks_ne_nil env items)
    | cons c cs => cases c; simp [prependHead]
  rw [h]
  simp

/-! ## ReplicaState (src/yb/consensus/replica_state.h; the implementation
file replica_state.cc is not part of this slice, so the method bodies are
modelled from the spec and the header contracts). -/

/-- Raft role of the local peer (RaftPeerPB::Role, restricted to the values
the embedded paths distinguish). -/
inductive Role where
  | leader
  | follower
  | nonParticipant
deriving DecidableEq, Repr

/-- In-memory Raft state of one replica (ReplicaState + ConsensusMetadata).
Uuids are modelled as naturals.  The pending-operations map (keyed by index)
is a list of the pending rounds' op ids with pairwise distinct indices. -/
structure ReplicaState where
  currentTerm : Int
  votedFor : Option Nat
  role : Role
  leaderUuid : Option Nat
  nextIndex : Int
  pending : List OpId
  lastReceived : OpId
  lastReceivedCurLeader : OpId
  committed : OpId
deriving DecidableEq, Repr

/-- Lookup of GetPendingOpByIndexOrNullUnlocked: the pending round with the
given index, if any. -/
def lookupPending (st : ReplicaState) (idx : Int) : Option OpId :=
  st.pending.find? (fun r => r.index = idx)

/-- The element of largest index (order-insensitive fold over the map). -/
def maxIndexOpId (l : List OpId) (dflt : OpId) : OpId :=
  l.foldl (fun acc r => if acc.index < r.index then r else acc) dflt

/-- Modelled from the spec: GetLastPendingOperationOpIdUnlocked returns the
id of the pending operation with the latest index, or the minimum sentinel
when the map is empty. -/
def getLastPendingOperationOpId (st : ReplicaState) : OpId :=
  if st.pending.isEmpty then minimumOpId else maxIndexOpId st.pending minimumOpId

/-- Modelled from the spec: AddPendingOperation inserts by index and fails if
an entry with the same index already exists with a different term or if the
index is at or below the committed index. -/
def addPendingOperation (st : ReplicaState) (op : OpId) : Option ReplicaState :=
  if op.index ≤ st.committed.index then none
  else match lookupPending st op.index with
    | some r =>
      if r.term ≠ op.term then none
      else some { st with pending := op :: st.pending.filter (fun q => q.index ≠ op.index) }
    | none => some { st with pending := op :: st.pending.filter (fun q => q.index ≠ op.index) }

/-- Modelled from the spec: NewIdUnlocked allocates the next leader index in
the current term. -/
def newId (st : ReplicaState) : OpId × ReplicaState :=
  (⟨st.currentTerm, st.nextIndex⟩, { st with nextIndex := st.nextIndex + 1 })

/-- Modelled from the spec: CancelPendingOperation removes the operation with
the given id from the pending map and restores the id generator to the state
it was in before that id was generated. -/
def cancelPendingOperation (st : ReplicaState) (id : OpId) : ReplicaState :=
  { st with pending := st.pending.filter (fun r => r.index ≠ id.index),
            nextIndex := id.index }

/-- Modelled from the spec: UpdateLastReceivedOpIdUnlocked records the id of
the last entry written to the local log, for the overall cursor and the
current-leader cursor. -/
def updateLastReceivedOpId (st : ReplicaState) (op : OpId) : ReplicaState :=
  { st with lastReceived := op, lastReceivedCurLeader := op }

/-- Every index in (committed, target] has a pending round. -/
def allIndexesPending (st : ReplicaState) (target : OpId) : Bool :=
  (List.range (target.index - st.committed.index).toNat).all
    (fun k => (lookupPending st (st.committed.index + 1 + k)).isSome)

/-- Modelled from the spec: AdvanceCommittedIndexUnlocked is a no-op when the
committed index would not change; otherwise it verifies that every index in
(committed, target] is pending (IllegalState, encoded as none, otherwise),
applies those operations in index order (removing them from the pending map)
and updates the committed op id.  The boolean reports whether the index
changed. -/
def advanceCommittedIndex (st : ReplicaState) (target : OpId) :
    Option (ReplicaState × Bool) :=
  if target.index ≤ st.committed.index then some (st, false)
  else if allIndexesPending st target then
    some ({ st with committed := target,
                    pending := st.pending.filter (fun r => ¬ r.index ≤ target.index) }, true)
  else none

/-- Modelled from the spec: AbortOpsAfterUnlocked drops all pending rounds
with index above the given one and sets the last received op id to the
largest remaining pending id, or the committed id if none remains. -/
def abortOpsAfter (st : ReplicaState) (idx : Int) : ReplicaState :=
  let keep := st.pending.filter (fun r => r.index ≤ idx)
  { st with pending := keep,
            lastReceived := if keep.isEmpty then st.committed
                            else maxIndexOpId keep minimumOpId }

/-! ## C4: RaftConsensus::AppendNewRoundsToQueueUnlocked
(src/yb/consensus/raft_consensus.cc lines 921-983) -/

/-- Error status surfaced by the append path. -/
inductive AppendError where
  | pendingAddFailed
  | queueFull
deriving DecidableEq, Repr

/-- The per-round loop of AppendNewRoundsToQueueUnlocked: allocate an op id
via NewIdUnlocked and add the round to the pending map; on an
AddPendingOperation failure, roll back the failed id and every previously
allocated id in reverse order (raft_consensus.cc lines 944-956).  Returns the
state, the ids allocated so far, and whether all adds succeeded. -/
def appendLoop (st : ReplicaState) (acc : List OpId) :
    Nat → ReplicaState × List OpId × Bool
  | 0 => (st, acc, true)
  | Nat.succ m =>
    let p := newId st
    match addPendingOperation p.2 p.1 with
    | some st2 => appendLoop st2 (acc ++ [p.1]) m
    | none =>
      ((p.1 :: acc.reverse).foldl cancelPendingOperation p.2, acc, false)

/-- Translation of RaftConsensus::AppendNewRoundsToQueueUnlocked for a batch
of `n` rounds.  `queueFull` models PeerMessageQueue::AppendOperations
returning ServiceUnavailable; in that case every allocated op id is rolled
back in reverse order (lines 966-978); otherwise the last-received op id is
updated to the last round's id (line 981). -/
def appendNewRoundsToQueue (st : ReplicaState) (n : Nat) (queueFull : Bool) :
    ReplicaState × Option AppendError :=
  match appendLoop st [] n with
  | (st1, _, false) => (st1, some AppendError.pendingAddFailed)
  | (st1, ids, true) =>
    if queueFull then
      (ids.reverse.foldl cancelPendingOperation st1, some AppendError.queueFull)
    else
      ((match ids.getLast? with
        | some last => updateLastReceivedOpId st1 last
        | none => st1),
       none)

/-- Consecutive op ids starting at a given term and index. -/
def idsFrom (term ni : Int) : Nat → List OpId
  | 0 => []
  | Nat.succ m => ⟨term, ni⟩ :: idsFrom term (ni + 1) m

/-- Ids a batch of `n` rounds would be assigned from state `st`. -/
def idsOf (st : ReplicaState) (n : Nat) : List OpId :=
  idsFrom st.currentTerm st.nextIndex n

theorem idsFrom_mem_bound (m : Nat) : ∀ (term ni : Int), ∀ r ∈ idsFrom term ni m,
    ni ≤ r.index ∧ r.index < ni + m := by
  induction m with
  | zero => intro term ni r hr; simp [idsFrom] at hr
  | succ k ih =>
    intro term ni r hr
    simp only [idsFrom, List.mem_cons] at hr
    rcases hr with rfl | hr
    · refine ⟨le_refl _, ?_⟩
      simp only
      push_cast
      omega
    · have h := ih term (ni + 1) r hr
      push_cast
      omega

theorem appendLoop_success (n : Nat) : ∀ (st : ReplicaState) (acc : List OpId),
    (∀ r ∈ st.pending, r.index < st.nextIndex) →
    st.committed.index < st.nextIndex →
    appendLoop st acc n =
      ({ st with nextIndex := st.nextIndex + n,
                 pending := (idsOf st n).reverse ++ st.pending },
       acc ++ idsOf st n, true) := by
  induction n with
  | zero =>
    intro st acc _ _
    simp [appendLoop, idsOf, idsFrom]
  | succ m ih =>
    intro st acc hpend hcomm
    obtain ⟨ct, vf, ro, lu, ni, pe, lr, lrc, co⟩ := st
    simp only at hpend hcomm
    have hne : ∀ r ∈ pe, ¬ (r.index = ni) := fun r hr => by
      have := hpend r hr; omega
    have hfind : pe.find? (fun r => r.index = ni) = none :=
      List.find?_eq_none.mpr (fun r hr => by simpa using hne r hr)
    have hfil : pe.filter (fun q => q.index ≠ ni) = pe :=
      List.filter_eq_self.mpr (fun r hr => by simpa using hne r hr)
    unfold appendLoop newId
    dsimp only
    unfold addPendingOperation lookupPending
    dsimp only
    rw [if_neg (show ¬ ni ≤ co.index by omega), hfind]
    dsimp only
    rw [hfil]
    rw [ih ⟨ct, vf, ro, lu, ni + 1, ⟨ct, ni⟩ :: pe, lr, lrc, co⟩
          (acc ++ [(⟨ct, ni⟩ : OpId)])
          (by
            intro r hr
            simp only [List.mem_cons] at hr
            rcases hr with h | h
            · subst h; simp only; omega
            · have := hpend r h; simp only; omega)
          (by simp only; omega)]
    simp only [idsOf, idsFrom, Prod.mk.injEq, ReplicaState.mk.injEq,
      List.reverse_cons, List.append_assoc, List.singleton_append,
      List.cons_append, List.nil_append, and_true, true_and]
    push_cast
    ring

theorem cancel_rollback (n : Nat) : ∀ (st : ReplicaState),
    (∀ r ∈ st.pending, r.index < st.nextIndex) →
    (idsOf st n).reverse.foldl cancelPendingOperation
      { st with nextIndex := st.nextIndex + n,
                pending := (idsOf st n).reverse ++ st.pending } = st := by
  induction n with
  | zero =>
    intro st _
    simp [idsOf, idsFrom]
  | succ m ih =>
    intro st hpend
    obtain ⟨ct, vf, ro, lu, ni, pe, lr, lrc, co⟩ := st
    simp only at hpend
    have hpend' : ∀ r ∈ ((⟨ct, ni⟩ : OpId) :: pe), r.index < ni + 1 := by
      intro r hr
      simp only [List.mem_cons] at hr
      rcases hr with rfl | hr
      · simp
      · have := hpend r hr; omega
    have hmain := ih ⟨ct, vf, ro, lu, ni + 1, ⟨ct, ni⟩ :: pe, lr, lrc, co⟩ hpend'
    simp only [idsOf] at hmain
    rw [show (ni + 1) + (m : Int) = ni + ((m : Int) + 1) from by ring] at hmain
    have hfil : pe.filter (fun r => r.index ≠ ni) = pe :=
      List.filter_eq_self.mpr (fun r hr => by
        have := hpend r hr
        simp only [decide_eq_true_eq]
        omega)
    simp only [idsOf, idsFrom, List.reverse_cons, List.foldl_append,
      List.foldl_cons, List.foldl_nil, List.append_assoc, List.singleton_append]
    rw [show ni + ((m + 1 : Nat) : Int) = ni + ((m : Int) + 1) from by push_cast; ring]
    rw [hmain]
    unfold cancelPendingOperation
    dsimp only
    simp only [List.filter_cons]
    rw [if_neg (by simp)]
    simp only [ReplicaState.mk.injEq, and_true, true_and]
    exact hfil

/-- C4: when PeerMessageQueue::AppendOperations fails with ServiceUnavailable
(queue full), AppendNewRoundsToQueueUnlocked rolls back every allocated op id
in reverse allocation order and returns the error, so the replica state (next
index and pending map included) is unchanged and the very same ids are
allocated by the next ReplicateBatch. -/
theorem appendNewRounds_queueFull_rollback (st : ReplicaState) (n : Nat)
    (hpend : ∀ r ∈ st.pending, r.index < st.nextIndex)
    (hcomm : st.committed.index < st.nextIndex) :
    appendNewRoundsToQueue st n true = (st, some AppendError.queueFull) ∧
    idsOf (appendNewRoundsToQueue st n true).1 n = idsOf st n := by
  have h1 : appendNewRoundsToQueue st n true = (st, some AppendError.queueFull) := by
    unfold appendNewRoundsToQueue
    rw [appendLoop_success n st [] hpend hcomm]
    simp only [List.nil_append, if_true]
    rw [cancel_rollback n st hpend]
  exact ⟨h1, by rw [h1]⟩

/-- Witness for C4 at a concrete state and batch size. -/
theorem appendNewRounds_queueFull_rollback_witness :
    appendNewRoundsToQueue
      { currentTerm := 3, votedFor := none, role := Role.leader,
        leaderUuid := some 1, nextIndex := 6,
        pending := [⟨3, 5⟩], lastReceived := ⟨3, 5⟩,
        lastReceivedCurLeader := ⟨3, 5⟩, committed := ⟨3, 4⟩ } 2 true =
      ({ currentTerm := 3, votedFor := none, role := Role.leader,
         leaderUuid := some 1, nextIndex := 6,
         pending := [⟨3, 5⟩], lastReceived := ⟨3, 5⟩,
         lastReceivedCurLeader := ⟨3, 5⟩, committed := ⟨3, 4⟩ },
       some AppendError.queueFull) :=
  (appendNewRounds_queueFull_rollback
    { currentTerm := 3, votedFor := none, role := Role.leader,
      leaderUuid := some 1, nextIndex := 6,
      pending := [⟨3, 5⟩], lastReceived := ⟨3, 5⟩,
      lastReceivedCurLeader := ⟨3, 5⟩, committed := ⟨3, 4⟩ } 2
    (by decide) (by decide)).1

/-! ## Follower update path: RaftConsensus::UpdateReplica and helpers
(src/yb/consensus/raft_consensus.cc lines 1172-1767) -/

/-- UpdateConsensus request (ConsensusRequestPB), restricted to the fields
the embedded path reads.  Each op is represented by its OpId. -/
structure ConsensusRequest where
  callerUuid : Nat
  callerTerm : Int
  precedingId : OpId
  ops : List OpId
  committedIndex : OpId
deriving DecidableEq, Repr

/-- The deduplicated leader request (RaftConsensus::LeaderRequest). -/
structure LeaderRequestDedup where
  precedingOpId : OpId
  messages : List OpId
deriving DecidableEq, Repr

/-- Accumulator of the dedup loop: the advanced preceding id, the mutable
dedup_up_to_index, and the messages kept so far. -/
structure DedupAcc where
  preceding : OpId
  dedupUpTo : Int
  messages : List OpId
deriving DecidableEq, Repr

/-- One iteration of the loop in
RaftConsensus::DeduplicateLeaderRequestUnlocked (lines 1185-1220): ops at or
below the committed index are skipped (advancing the preceding id); ops at or
below dedup_up_to_index whose exact id is already pending are skipped; on a
term mismatch dedup_up_to_index is pulled back to that index and the op is
kept; all other ops are kept.  The pending lookup cannot miss for an
uncommitted index at or below the match index (DCHECK in the source); a
miss is folded into the mismatch branch. -/
def dedupStep (st : ReplicaState) (acc : DedupAcc) (msg : OpId) : DedupAcc :=
  if msg.index ≤ st.committed.index then
    { acc with preceding := msg }
  else if msg.index ≤ acc.dedupUpTo then
    match lookupPending st msg.index with
    | some r =>
      if r = msg then { acc with preceding := msg }
      else { acc with dedupUpTo := msg.index, messages := acc.messages ++ [msg] }
    | none => { acc with dedupUpTo := msg.index, messages := acc.messages ++ [msg] }
  else
    { acc with messages := acc.messages ++ [msg] }

/-- Translation of RaftConsensus::DeduplicateLeaderRequestUnlocked. -/
def deduplicateLeaderRequest (st : ReplicaState) (req : ConsensusRequest) :
    LeaderRequestDedup :=
  let res := req.ops.foldl (dedupStep st)
    ⟨req.precedingId, st.lastReceived.index, []⟩
  ⟨res.preceding, res.messages⟩

/-- ReplicaState::CheckOpInSequence: the term never decreases and the index
increases by exactly one. -/
def checkOpInSequence (prev cur : OpId) : Bool :=
  prev.term ≤ cur.term ∧ cur.index = prev.index + 1

/-- RaftConsensus::CheckLeaderRequestOpIdSequence: pairwise sequence check of
the deduplicated messages against the deduplicated preceding id. -/
def checkSequence (prec : OpId) (msgs : List OpId) : Bool :=
  (msgs.foldl (fun (acc : OpId × Bool) m =>
    (m, acc.2 && checkOpInSequence acc.1 m)) (prec, true)).2

/-- Modelled from the spec: IsOpCommittedOrPending is true when the op id is
at or below the committed index or a pending round has the exact (term,
index); the second component reports a pending round with the same index but
a different term. -/
def isOpCommittedOrPending (st : ReplicaState) (op : OpId) : Bool × Bool :=
  let tm := match lookupPending st op.index with
    | some r => r.term ≠ op.term
    | none => false
  let res : Bool := decide (op.index ≤ st.committed.index) ||
    (match lookupPending st op.index with
     | some r => decide (r = op)
     | none => false)
  (res, tm)

/-- Modelled from the spec: SetCurrentTermUnlocked stores the new term and
clears the vote; the current-leader bookkeeping (leader uuid and the
last-received-from-current-leader cursor) is reset on every term advancement
(replica_state.h comment on last_received_op_id_current_leader_). -/
def setCurrentTerm (st : ReplicaState) (t : Int) : ReplicaState :=
  { st with currentTerm := t, votedFor := none, leaderUuid := none,
            lastReceivedCurLeader := minimumOpId }

/-- RaftConsensus::HandleTermAdvanceUnlocked (lines 2830-2848): only
increasing; a leader becomes a replica first; then the new term is
persisted. -/
def handleTermAdvance (st : ReplicaState) (t : Int) : Option ReplicaState :=
  if t ≤ st.currentTerm then none
  else some { setCurrentTerm st t with
              role := if st.role = Role.leader then Role.follower else st.role }

/-- Follower response error codes surfaced through ConsensusResponsePB
status.error (the subset produced by the embedded path). -/
inductive RespError where
  | invalidTerm
  | precedingEntryDidntMatch
  | cannotPrepare
deriving DecidableEq, Repr

/-- The response fields filled by
RaftConsensus::FillConsensusResponseOKUnlocked plus the optional error. -/
structure ConsensusResponse where
  responderTerm : Int
  lastReceived : OpId
  lastReceivedCurLeader : OpId
  lastCommittedIdx : Int
  error : Option RespError
deriving DecidableEq, Repr

/-- FillConsensusResponseOKUnlocked (lines 1769-1778). -/
def fillResponseOK (st : ReplicaState) (err : Option RespError) :
    ConsensusResponse :=
  ⟨st.currentTerm, st.lastReceived, st.lastReceivedCurLeader,
   st.committed.index, err⟩

/-- Non-OK Status kinds returned by UpdateReplica itself. -/
inductive UpdateErr where
  | corruption
  | illegalState
  | invalidArgument
  | serviceUnavailable
  | advanceFailed
deriving DecidableEq, Repr

/-- Outcome of UpdateReplica: an OK reply (possibly carrying a response
error) or a non-OK Status. -/
inductive UpdateOutcome where
  | ok (resp : ConsensusResponse)
  | failed (e : UpdateErr)
deriving DecidableEq, Repr

/-- RaftConsensus::EarlyCommitUnlocked (lines 1567-1582): commit as many
pending operations as possible, bounded by the deduplicated preceding id and
the leader's committed index. -/
def earlyCommit (st : ReplicaState) (req : ConsensusRequest)
    (dd : LeaderRequestDedup) : Option ReplicaState :=
  let e0 := getLastPendingOperationOpId st
  let e1 := copyIfOpIdLessThan dd.precedingOpId e0
  let e2 := copyIfOpIdLessThan req.committedIndex e1
  (advanceCommittedIndex st e2).map Prod.fst

/-- RaftConsensus::EnqueuePreparesUnlocked inner loop (lines 1626-1655):
start replica operations in order (for consensus state this is
AddPendingOperation); on the first failure the remaining messages are
dropped.  Returns the new state and the messages that were started. -/
def enqueuePrepares : ReplicaState → List OpId → ReplicaState × List OpId
  | st, [] => (st, [])
  | st, m :: rest =>
    match addPendingOperation st m with
    | some st' =>
      let r := enqueuePrepares st' rest
      (r.1, m :: r.2)
    | none => (st, [])

/-- RaftConsensus::MarkOperationsAsCommittedUnlocked (lines 1723-1767):
cap the apply point at the last op appended from the leader in this request,
update the last-received cursors when new messages were appended (otherwise
check the preceding id against the cursor), then advance the committed
index. -/
def markOperationsAsCommitted (st : ReplicaState) (req : ConsensusRequest)
    (dd : LeaderRequestDedup) (lastFromLeader : OpId) :
    Except UpdateErr ReplicaState :=
  let applyUpTo := if lastFromLeader.index < req.committedIndex.index
    then lastFromLeader else req.committedIndex
  let st1res : Except UpdateErr ReplicaState :=
    match dd.messages.getLast? with
    | some l => Except.ok (updateLastReceivedOpId st l)
    | none =>
      if st.lastReceived.index < dd.precedingOpId.index then
        Except.error UpdateErr.invalidArgument
      else Except.ok st
  match st1res with
  | Except.error e => Except.error e
  | Except.ok st1 =>
    match advanceCommittedIndex st1 applyUpTo with
    | some p => Except.ok p.1
    | none => Except.error UpdateErr.advanceFailed

/-- Tail of UpdateReplica after the early-commit step (lines 1478-1531):
enqueue prepares (dropping the tail of the messages on the first prepare
failure and reporting it), enqueue writes, mark operations as committed and
fill the response. -/
def markPhase (stD : ReplicaState) (req : ConsensusRequest)
    (dd : LeaderRequestDedup) : ReplicaState × UpdateOutcome :=
  let pr := enqueuePrepares stD dd.messages
  let stE := pr.1
  if pr.2.isEmpty ∧ ¬ dd.messages.isEmpty then
    (stE, UpdateOutcome.ok
      (fillResponseOK stE (some RespError.cannotPrepare)))
  else
    let dd' : LeaderRequestDedup :=
      ⟨dd.precedingOpId, pr.2⟩
    let lastFromLeader := match pr.2.getLast? with
      | some l => l
      | none => dd'.precedingOpId
    match markOperationsAsCommitted stE req dd' lastFromLeader with
    | Except.error e => (stE, UpdateOutcome.failed e)
    | Except.ok stF =>
      (stF, UpdateOutcome.ok (fillResponseOK stF none))

/-- UpdateReplica steps 4-5 (lines 1464-1490): early commit, then reject
under memory pressure when new operations would have to be prepared. -/
def commitPhase (stC : ReplicaState) (req : ConsensusRequest)
    (dd : LeaderRequestDedup) (memPressure : Bool) :
    ReplicaState × UpdateOutcome :=
  match earlyCommit stC req dd with
  | none => (stC, UpdateOutcome.failed UpdateErr.advanceFailed)
  | some stD =>
    if ¬ dd.messages.isEmpty ∧ memPressure then
      (stD, UpdateOutcome.failed UpdateErr.serviceUnavailable)
    else markPhase stD req dd

/-- UpdateReplica leader bookkeeping: the sender is recorded as the current
leader on the first accepted request of the term; a different sender in the
same term is a fatal inconsistency (modelled as a failed status). -/
def acceptLeaderPhase (stB : ReplicaState) (req : ConsensusRequest)
    (dd : LeaderRequestDedup) (memPressure : Bool) :
    ReplicaState × UpdateOutcome :=
  match (match stB.leaderUuid with
         | none => some { stB with leaderUuid := some req.callerUuid }
         | some u => if u = req.callerUuid then some stB else none) with
  | none => (stB, UpdateOutcome.failed UpdateErr.illegalState)
  | some stC => commitPhase stC req dd memPressure

/-- CheckLeaderRequestUnlocked after the sequence check (lines 1325-1385):
enforce the log matching property on the deduplicated preceding id (aborting
conflicting pending ops on a term mismatch), and reject a first deduped
message that is already committed or pending. -/
def logMatchPhase (stA : ReplicaState) (req : ConsensusRequest)
    (dd : LeaderRequestDedup) (memPressure : Bool) :
    ReplicaState × UpdateOutcome :=
  let lm := isOpCommittedOrPending stA dd.precedingOpId
  if ¬ lm.1 then
    let stB := if lm.2 then abortOpsAfter stA (dd.precedingOpId.index - 1)
               else stA
    (stB, UpdateOutcome.ok
      (fillResponseOK stB (some RespError.precedingEntryDidntMatch)))
  else
    let firstRes : Option ReplicaState :=
      match dd.messages.head? with
      | none => some stA
      | some first =>
        let fc := isOpCommittedOrPending stA first
        if fc.1 then none
        else some (if fc.2 then abortOpsAfter stA dd.precedingOpId.index
                   else stA)
    match firstRes with
    | none => (stA, UpdateOutcome.failed UpdateErr.illegalState)
    | some stB => acceptLeaderPhase stB req dd memPressure

/-- Translation of RaftConsensus::UpdateReplica (lines 1387-1565) together
with CheckLeaderRequestUnlocked (lines 1325-1385): deduplicate, check the op
id sequence, check the caller term (advancing the local term when the caller
is ahead), then hand over to the log-matching, leader-acceptance, commit and
mark phases.  `memPressure` models MemTracker soft-limit exhaustion. -/
def updateReplica (st : ReplicaState) (req : ConsensusRequest)
    (memPressure : Bool) : ReplicaState × UpdateOutcome :=
  let dd := deduplicateLeaderRequest st req
  if ¬ checkSequence dd.precedingOpId dd.messages then
    (st, UpdateOutcome.failed UpdateErr.corruption)
  else if req.callerTerm < st.currentTerm then
    (st, UpdateOutcome.ok (fillResponseOK st (some RespError.invalidTerm)))
  else
    match (if st.currentTerm < req.callerTerm
           then handleTermAdvance st req.callerTerm else some st) with
    | none => (st, UpdateOutcome.failed UpdateErr.illegalState)
    | some stA => logMatchPhase stA req dd memPressure

/-! ## Order lemmas for OpId -/

theorem opIdLe_refl (a : OpId) : opIdLe a a := by
  unfold opIdLe; right; exact ⟨rfl, le_refl _⟩

theorem opIdLe_trans {a b c : OpId} (h1 : opIdLe a b) (h2 : opIdLe b c) :
    opIdLe a c := by
  unfold opIdLe at *
  rcases h1 with h1 | ⟨h1, h1i⟩ <;> rcases h2 with h2 | ⟨h2, h2i⟩
  · left; omega
  · left; omega
  · left; omega
  · right; constructor
    · omega
    · omega

theorem opIdLessThan_true {a b : OpId} (h : opIdLessThan a b = true) :
    opIdLe a b := by
  unfold opIdLessThan at h
  unfold opIdLe
  by_cases ht : a.term = b.term
  · simp [ht] at h
    right; exact ⟨ht, le_of_lt h⟩
  · simp [ht] at h
    left; exact h

theorem opIdLessThan_false {a b : OpId} (h : opIdLessThan a b = false) :
    opIdLe b a := by
  unfold opIdLessThan at h
  unfold opIdLe
  by_cases ht : a.term = b.term
  · simp [ht] at h
    right; exact ⟨ht.symm, h⟩
  · simp [ht] at h
    left; omega

theorem copyIf_le_fst (a b : OpId) : opIdLe (copyIfOpIdLessThan a b) a := by
  unfold copyIfOpIdLessThan
  cases h : opIdLessThan a b with
  | true => simp [h]; exact opIdLe_refl a
  | false => simp [h]; exact opIdLessThan_false h

theorem copyIf_le_snd (a b : OpId) : opIdLe (copyIfOpIdLessThan a b) b := by
  unfold copyIfOpIdLessThan
  cases h : opIdLessThan a b with
  | true => simp [h]; exact opIdLessThan_true h
  | false => simp [h]; exact opIdLe_refl b

/-! ## C1: bounded two-step commit advance on the follower update path -/

/-- The early-commit bound computed at raft_consensus.cc lines 1574-1576:
the minimum (under the OpId order, taken by successive CopyIfOpIdLessThan)
of the last pending operation's op id, the deduplicated preceding op id and
the request's committed index. -/
def earlyCommitBound (st : ReplicaState) (req : ConsensusRequest)
    (dd : LeaderRequestDedup) : OpId :=
  copyIfOpIdLessThan req.committedIndex
    (copyIfOpIdLessThan dd.precedingOpId (getLastPendingOperationOpId st))

/-- The apply bound computed at raft_consensus.cc lines 1729-1739: the op id
with the smaller index among the last op appended from the leader in this
request and the request's committed index. -/
def commitBound (lastFromLeader committedIndex : OpId) : OpId :=
  if lastFromLeader.index < committedIndex.index then lastFromLeader
  else committedIndex

theorem advanceCommittedIndex_committed {st : ReplicaState} {t : OpId}
    {st' : ReplicaState} {ch : Bool}
    (h : advanceCommittedIndex st t = some (st', ch)) :
    st'.committed.index = max st.committed.index t.index ∧
    st'.currentTerm = st.currentTerm ∧
    st'.lastReceived = st.lastReceived ∧
    st'.lastReceivedCurLeader = st.lastReceivedCurLeader := by
  unfold advanceCommittedIndex at h
  by_cases h1 : t.index ≤ st.committed.index
  · rw [if_pos h1] at h
    simp only [Option.some.injEq, Prod.mk.injEq] at h
    rw [← h.1]
    exact ⟨by omega, rfl, rfl, rfl⟩
  · rw [if_neg h1] at h
    by_cases h2 : allIndexesPending st t = true
    · rw [if_pos h2] at h
      simp only [Option.some.injEq, Prod.mk.injEq] at h
      rw [← h.1]
      exact ⟨by simp only; omega, rfl, rfl, rfl⟩
    · simp only [h2, if_false] at h
      exact absurd h (by simp)

/-- C1: on the follower update path, the committed op id advances in two
bounded steps.  EarlyCommitUnlocked advances it by at most the minimum of
the last pending op id, the deduplicated preceding op id and the request's
committed index; MarkOperationsAsCommittedUnlocked then advances it by at
most the (index-)minimum of the last op appended from the leader in this
request and the request's committed index.  After each step, the committed
index is exactly the maximum of its previous value and that step's bound,
so it never exceeds either of them. -/
theorem committed_opid_two_step_bounds (st st1 st2 : ReplicaState)
    (req : ConsensusRequest) (dd : LeaderRequestDedup) (lastFromLeader : OpId)
    (h1 : earlyCommit st req dd = some st1)
    (h2 : markOperationsAsCommitted st1 req dd lastFromLeader
            = Except.ok st2) :
    (opIdLe (earlyCommitBound st req dd) (getLastPendingOperationOpId st) ∧
     opIdLe (earlyCommitBound st req dd) dd.precedingOpId ∧
     opIdLe (earlyCommitBound st req dd) req.committedIndex) ∧
    st1.committed.index
      = max st.committed.index (earlyCommitBound st req dd).index ∧
    (commitBound lastFromLeader req.committedIndex).index
      = min lastFromLeader.index req.committedIndex.index ∧
    st2.committed.index
      = max st1.committed.index
          (commitBound lastFromLeader req.committedIndex).index := by
  refine ⟨⟨?_, ?_, ?_⟩, ?_, ?_, ?_⟩
  · exact opIdLe_trans (copyIf_le_snd _ _)
      (opIdLe_trans (copyIf_le_snd _ _) (opIdLe_refl _))
  · exact opIdLe_trans (copyIf_le_snd _ _) (copyIf_le_fst _ _)
  · exact copyIf_le_fst _ _
  · have h1' : Option.map Prod.fst
        (advanceCommittedIndex st (earlyCommitBound st req dd)) = some st1 := by
      unfold earlyCommit at h1
      exact h1
    cases hadv : advanceCommittedIndex st (earlyCommitBound st req dd) with
    | none => rw [hadv] at h1'; simp at h1'
    | some p =>
      rw [hadv] at h1'
      simp only [Option.map_some', Option.some.injEq] at h1'
      obtain ⟨st1', ch⟩ := p
      have hc := advanceCommittedIndex_committed hadv
      rw [← h1']
      exact hc.1
  · unfold commitBound
    split <;> omega
  · unfold markOperationsAsCommitted at h2
    cases hl : dd.messages.getLast? with
    | some l =>
      rw [hl] at h2
      simp only at h2
      cases hadv : advanceCommittedIndex (updateLastReceivedOpId st1 l)
          (if lastFromLeader.index < req.committedIndex.index
           then lastFromLeader else req.committedIndex) with
      | none => rw [hadv] at h2; simp at h2
      | some p =>
        rw [hadv] at h2
        simp only [Except.ok.injEq] at h2
        have hc := advanceCommittedIndex_committed hadv
        rw [← h2]
        unfold commitBound
        have : (updateLastReceivedOpId st1 l).committed = st1.committed := rfl
        rw [hc.1, this]
    | none =>
      rw [hl] at h2
      simp only at h2
      by_cases hlt : st1.lastReceived.index < dd.precedingOpId.index
      · rw [if_pos hlt] at h2
        exact absurd h2 (by simp)
      · rw [if_neg hlt] at h2
        simp only at h2
        cases hadv : advanceCommittedIndex st1
            (if lastFromLeader.index < req.committedIndex.index
             then lastFromLeader else req.committedIndex) with
        | none => rw [hadv] at h2; simp at h2
        | some p =>
          rw [hadv] at h2
          simp only [Except.ok.injEq] at h2
          have hc := advanceCommittedIndex_committed hadv
          rw [← h2]
          unfold commitBound
          rw [hc.1]

/-- Witness for C1 at a concrete state, request and dedup result. -/
theorem committed_opid_two_step_bounds_witness :
    (opIdLe (⟨2, 3⟩ : OpId) (⟨2, 3⟩ : OpId)) ∧
    ((⟨2, 3⟩ : OpId) : OpId).index = (3 : Int) := by
  have h := committed_opid_two_step_bounds
    { currentTerm := 2, votedFor := none, role := Role.follower,
      leaderUuid := some 7, nextIndex := 0,
      pending := [⟨2, 3⟩], lastReceived := ⟨2, 3⟩,
      lastReceivedCurLeader := ⟨2, 3⟩, committed := ⟨2, 2⟩ }
    { currentTerm := 2, votedFor := none, role := Role.follower,
      leaderUuid := some 7, nextIndex := 0,
      pending := [], lastReceived := ⟨2, 3⟩,
      lastReceivedCurLeader := ⟨2, 3⟩, committed := ⟨2, 3⟩ }
    { currentTerm := 2, votedFor := none, role := Role.follower,
      leaderUuid := some 7, nextIndex := 0,
      pending := [], lastReceived := ⟨2, 3⟩,
      lastReceivedCurLeader := ⟨2, 3⟩, committed := ⟨2, 3⟩ }
    { callerUuid := 7, callerTerm := 2, precedingId := ⟨2, 3⟩,
      ops := [], committedIndex := ⟨2, 3⟩ }
    ⟨⟨2, 3⟩, []⟩ ⟨2, 3⟩ rfl rfl
  exact ⟨h.1.2.1, rfl⟩

/-! ## C5: RaftConsensus::IsLeaderReadyForChangeConfigUnlocked
(src/yb/consensus/raft_consensus.cc lines 1901-1934) -/

/-- Raft member types (RaftPeerPB::MemberType). -/
inductive MemberType where
  | voter
  | observer
  | preVoter
  | preObserver
  | nonParticipant
deriving DecidableEq, Repr

/-- A peer descriptor of a Raft configuration. -/
structure RaftPeer where
  uuid : Nat
  memberType : MemberType
deriving DecidableEq, Repr

/-- Modelled from the spec: CountServersInTransition counts the PRE_VOTER and
PRE_OBSERVER members of a config, optionally ignoring one uuid
(quorum_util.cc is outside this slice). -/
def countServersInTransition (cfg : List RaftPeer) (exclude : Option Nat) : Nat :=
  (cfg.filter (fun p =>
    (p.memberType = MemberType.preVoter ∨ p.memberType = MemberType.preObserver)
    ∧ exclude ≠ some p.uuid)).length

/-- The consensus state read by the ChangeConfig readiness gate. -/
structure ConfigState where
  currentTerm : Int
  committed : OpId
  committedConfig : List RaftPeer
  pendingConfig : Option (List RaftPeer)
deriving DecidableEq, Repr

/-- The pending config when one exists, else the committed config. -/
def activeConfig (cs : ConfigState) : List RaftPeer :=
  cs.pendingConfig.getD cs.committedConfig

/-- Modelled from the spec: AreCommittedAndCurrentTermsSame is true iff an op
from the current term has been committed. -/
def areCommittedAndCurrentTermsSame (cs : ConfigState) : Bool :=
  cs.committed.term = cs.currentTerm

/-- ChangeConfig request types handled by the gate. -/
inductive ChangeConfigType where
  | addServer
  | removeServer
  | changeRole
deriving DecidableEq, Repr

/-- Translation of RaftConsensus::IsLeaderReadyForChangeConfigUnlocked:
servers-in-transition are counted over the active config for ADD_SERVER,
over the active config minus the affected server for REMOVE_SERVER, and are
not counted at all for CHANGE_ROLE; the leader is ready iff it has committed
an entry in its current term, no config change is pending, and the computed
transition count is zero. -/
def isLeaderReadyForChangeConfig (cs : ConfigState) (t : ChangeConfigType)
    (serverUuid : Nat) : Bool :=
  let serversInTransition := match t with
    | ChangeConfigType.addServer => countServersInTransition (activeConfig cs) none
    | ChangeConfigType.removeServer =>
      countServersInTransition (activeConfig cs) (some serverUuid)
    | ChangeConfigType.changeRole => 0
  areCommittedAndCurrentTermsSame cs ∧ ¬ cs.pendingConfig.isSome
    ∧ serversInTransition = 0

/-- Outcome of the readiness gate inside RaftConsensus::ChangeConfig (lines
1973-1979): a LEADER_NOT_READY_CHANGE_CONFIG error or fall-through to the
per-type handling. -/
inductive ChangeConfigGate where
  | leaderNotReadyChangeConfig
  | proceeded
deriving DecidableEq, Repr

/-- The readiness gate of RaftConsensus::ChangeConfig. -/
def changeConfigGate (cs : ConfigState) (t : ChangeConfigType)
    (serverUuid : Nat) : ChangeConfigGate :=
  if isLeaderReadyForChangeConfig cs t serverUuid then
    ChangeConfigGate.proceeded
  else ChangeConfigGate.leaderNotReadyChangeConfig

/-- The preconditions exactly as the C5 claim lists them, uniformly for all
three types: committed entry in the current term, no pending config change,
and no peers in PRE_VOTER or PRE_OBSERVER transition except the peer being
removed. -/
def claimedChangeConfigPre (cs : ConfigState) (t : ChangeConfigType)
    (serverUuid : Nat) : Prop :=
  areCommittedAndCurrentTermsSame cs = true ∧ cs.pendingConfig = none ∧
  countServersInTransition (activeConfig cs)
    (if t = ChangeConfigType.removeServer then some serverUuid else none) = 0

instance (cs : ConfigState) (t : ChangeConfigType) (u : Nat) :
    Decidable (claimedChangeConfigPre cs t u) := by
  unfold claimedChangeConfigPre; infer_instance

/-- Counterexample to C5 as stated: a CHANGE_ROLE request promoting the
PRE_VOTER peer 2, issued by a leader that has committed in its term with no
pending config, passes the gate even though a peer (peer 2 itself) is in
PRE_VOTER transition and is not being removed, so the claimed precondition
fails while no LEADER_NOT_READY_CHANGE_CONFIG error is produced. -/
theorem changeConfigGate_changeRole_counterexample :
    ¬ claimedChangeConfigPre
        { currentTerm := 3, committed := ⟨3, 5⟩,
          committedConfig := [⟨1, MemberType.voter⟩, ⟨2, MemberType.preVoter⟩],
          pendingConfig := none }
        ChangeConfigType.changeRole 2 ∧
    changeConfigGate
        { currentTerm := 3, committed := ⟨3, 5⟩,
          committedConfig := [⟨1, MemberType.voter⟩, ⟨2, MemberType.preVoter⟩],
          pendingConfig := none }
        ChangeConfigType.changeRole 2 = ChangeConfigGate.proceeded := by
  decide

/-- C5 (amended): the gate returns LEADER_NOT_READY_CHANGE_CONFIG exactly
when the preconditions fail, where the no-servers-in-transition precondition
applies to ADD_SERVER (all peers) and REMOVE_SERVER (all peers except the one
being removed) but not to CHANGE_ROLE, which only requires a committed entry
in the current term and no pending config change. -/
theorem changeConfigGate_characterization (cs : ConfigState)
    (t : ChangeConfigType) (serverUuid : Nat) :
    changeConfigGate cs t serverUuid = ChangeConfigGate.leaderNotReadyChangeConfig
      ↔ ¬ (areCommittedAndCurrentTermsSame cs = true ∧ cs.pendingConfig = none ∧
           (match t with
            | ChangeConfigType.addServer =>
              countServersInTransition (activeConfig cs) none = 0
            | ChangeConfigType.removeServer =>
              countServersInTransition (activeConfig cs) (some serverUuid) = 0
            | ChangeConfigType.changeRole => True)) := by
  unfold changeConfigGate isLeaderReadyForChangeConfig
  cases t <;>
    simp [Option.isSome_iff_exists, Option.eq_none_iff_forall_not_mem]

/-! ## C8: Peer::SignalRequest and Peer::SendNextRequest
(src/yb/consensus/consensus_peers.cc lines 139-269) -/

/-- Peer lifecycle states (consensus_peers.h). -/
inductive PeerLifecycle where
  | created
  | started
  | running
  | closed
deriving DecidableEq, Repr

/-- Mutable per-peer sender state read by SignalRequest: lifecycle, count of
consecutive failed attempts, and whether the single send permit is free. -/
structure PeerState where
  lifecycle : PeerLifecycle
  failedAttempts : Nat
  semFree : Bool
deriving DecidableEq, Repr

/-- Request trigger modes. -/
inductive TriggerMode where
  | alwaysSend
  | nonEmptyOnly
deriving DecidableEq, Repr

/-- What the queue handed back for this peer (RequestForPeer outputs plus
the committed index of the retained request_ before and after the call). -/
structure PeerQueueOutcome where
  statusOk : Bool
  needsRemoteBootstrap : Bool
  memberType : MemberType
  lastExchangeSuccessful : Bool
  opsSize : Nat
  commitIndexBefore : Int
  commitIndexAfter : Int
deriving DecidableEq, Repr

/-- Externally visible action taken by one SendNextRequest invocation. -/
inductive SendAction where
  | releasedNoRpc
  | remoteBootstrapStarted
  | changeRoleRequested
  | rpcSent
deriving DecidableEq, Repr

/-- Translation of Peer::SendNextRequest (consensus_peers.cc lines 183-269):
a failed queue request releases the permit; a needs-remote-bootstrap answer
starts remote bootstrap; a caught-up PRE_VOTER/PRE_OBSERVER triggers a
CHANGE_ROLE config change; an effectively empty payload (no ops and no
committed-index advance) under NON_EMPTY_ONLY releases the permit; otherwise
the UpdateConsensus RPC is issued. -/
def sendNextRequest (env : PeerQueueOutcome) (mode : TriggerMode) : SendAction :=
  if ¬ env.statusOk then SendAction.releasedNoRpc
  else if env.needsRemoteBootstrap then SendAction.remoteBootstrapStarted
  else if env.lastExchangeSuccessful ∧
      (env.memberType = MemberType.preVoter ∨
       env.memberType = MemberType.preObserver) then
    SendAction.changeRoleRequested
  else
    let reqHasOps := env.opsSize > 0 ∨ env.commitIndexAfter > env.commitIndexBefore
    if ¬ reqHasOps ∧ mode = TriggerMode.nonEmptyOnly then
      SendAction.releasedNoRpc
    else SendAction.rpcSent

/-- Result of Peer::SignalRequest. -/
inductive SignalResult where
  | okAlreadySending
  | illegalStateClosed
  | okNoSend
  | submitted (mode : TriggerMode)
deriving DecidableEq, Repr

/-- Translation of Peer::SignalRequest (consensus_peers.cc lines 139-181):
try the permit; a closed peer releases and errors; a just-started peer is
upgraded to running with a forced ALWAYS_SEND; a failed previous attempt
under NON_EMPTY_ONLY releases the permit and returns OK; otherwise
SendNextRequest is submitted with the permit held. -/
def signalRequest (st : PeerState) (mode : TriggerMode) :
    PeerState × SignalResult :=
  if ¬ st.semFree then (st, SignalResult.okAlreadySending)
  else
    let st1 : PeerState := { st with semFree := false }
    if st1.lifecycle = PeerLifecycle.closed then
      ({ st1 with semFree := true }, SignalResult.illegalStateClosed)
    else
      let p : TriggerMode × PeerState :=
        if st1.lifecycle = PeerLifecycle.started then
          (TriggerMode.alwaysSend, { st1 with lifecycle := PeerLifecycle.running })
        else (mode, st1)
      if p.2.failedAttempts > 0 ∧ p.1 = TriggerMode.nonEmptyOnly then
        ({ p.2 with semFree := true }, SignalResult.okNoSend)
      else (p.2, SignalResult.submitted p.1)

/-- Counterexample to C8 as stated: a payload with no operations whose
committed index advanced since the previous request is sent even under
NON_EMPTY_ONLY (req_has_ops at consensus_peers.cc line 251 also counts a
committed-index advance), so the permit is not released and the RPC is
issued. -/
theorem sendNextRequest_emptyOps_counterexample :
    sendNextRequest
      { statusOk := true, needsRemoteBootstrap := false,
        memberType := MemberType.voter, lastExchangeSuccessful := true,
        opsSize := 0, commitIndexBefore := 3, commitIndexAfter := 7 }
      TriggerMode.nonEmptyOnly = SendAction.rpcSent := by
  decide

/-- C8 (amended): under NON_EMPTY_ONLY, a payload with no operations whose
committed index did not advance releases the permit without issuing an
UpdateConsensus RPC; and SignalRequest on a running peer whose previous
request failed releases the permit and returns OK without submitting
anything when invoked with NON_EMPTY_ONLY. -/
theorem peer_nonEmptyOnly_suppression (env : PeerQueueOutcome) (st : PeerState)
    (hok : env.statusOk = true)
    (hrb : env.needsRemoteBootstrap = false)
    (hcr : ¬ (env.lastExchangeSuccessful = true ∧
      (env.memberType = MemberType.preVoter ∨
       env.memberType = MemberType.preObserver)))
    (hops : env.opsSize = 0)
    (hci : env.commitIndexAfter ≤ env.commitIndexBefore)
    (hrun : st.lifecycle = PeerLifecycle.running)
    (hsem : st.semFree = true)
    (hfail : 0 < st.failedAttempts) :
    sendNextRequest env TriggerMode.nonEmptyOnly = SendAction.releasedNoRpc ∧
    signalRequest st TriggerMode.nonEmptyOnly = (st, SignalResult.okNoSend) := by
  constructor
  · unfold sendNextRequest
    rw [if_neg (by simp [hok]), if_neg (by simp [hrb]), if_neg hcr]
    rw [if_pos]
    refine ⟨?_, by trivial⟩
    rintro (h | h) <;> omega
  · obtain ⟨lc, fa, sf⟩ := st
    simp only at hrun hsem hfail
    subst hrun hsem
    simp [signalRequest, hfail]

/-- Witness for C8 at a concrete queue outcome and peer state. -/
theorem peer_nonEmptyOnly_suppression_witness :
    sendNextRequest
      { statusOk := true, needsRemoteBootstrap := false,
        memberType := MemberType.voter, lastExchangeSuccessful := true,
        opsSize := 0, commitIndexBefore := 5, commitIndexAfter := 5 }
      TriggerMode.nonEmptyOnly = SendAction.releasedNoRpc ∧
    signalRequest
      { lifecycle := PeerLifecycle.running, failedAttempts := 2, semFree := true }
      TriggerMode.nonEmptyOnly =
      ({ lifecycle := PeerLifecycle.running, failedAttempts := 2, semFree := true },
       SignalResult.okNoSend) :=
  peer_nonEmptyOnly_suppression
    { statusOk := true, needsRemoteBootstrap := false,
      memberType := MemberType.voter, lastExchangeSuccessful := true,
      opsSize := 0, commitIndexBefore := 5, commitIndexAfter := 5 }
    { lifecycle := PeerLifecycle.running, failedAttempts := 2, semFree := true }
    rfl rfl (by decide) rfl (by decide) rfl rfl (by decide)

/-! ## C3, C9, C10: RaftConsensus::RequestVote
(src/yb/consensus/raft_consensus.cc lines 1788-1899 and 2254-2373) -/

/-- Sentinel for HybridTime::kMin.GetPhysicalValueMicros(): an old-leader
hybrid-time lease expiration equal to it is not attached to the response. -/
def htLeaseMinSentinel : Int := 0

/-- VoteRequestPB, restricted to the fields the handler reads. -/
structure VoteRequest where
  candidateUuid : Nat
  candidateTerm : Int
  lastReceived : OpId
  ignoreLiveLeader : Bool
deriving DecidableEq, Repr

/-- Environment of one RequestVote invocation: the leader failure detection
flag, whether the coarse update lock is held by a concurrent Update or vote,
whether a valid leader was heard from within the withhold-votes window, the
last-logged op id from the log, the uuids of the active config, and the
old-leader lease information from the replica state. -/
structure VoteEnv where
  failureDetectionEnabled : Bool
  updateLockBusy : Bool
  leaderRecentlyHeard : Bool
  localLastLogged : OpId
  activeConfigUuids : List Nat
  remainingOldLeaderLeaseMs : Option Int
  oldLeaderHtLeaseExpiration : Int
deriving DecidableEq, Repr

/-- ConsensusErrorPB codes a vote denial can carry. -/
inductive VoteError where
  | leaderIsAlive
  | invalidTerm
  | alreadyVoted
  | lastOpIdTooOld
  | consensusBusy
deriving DecidableEq, Repr

/-- VoteResponsePB, restricted to the fields the handler writes, plus a flag
recording the informational unknown-peer log line. -/
structure VoteResponse where
  responderTerm : Int
  voteGranted : Bool
  errorCode : Option VoteError
  remainingLeaseDurationMs : Option Int
  leaderHtLeaseExpiration : Option Int
  loggedUnknownPeer : Bool
deriving DecidableEq, Repr

/-- A denial response (FillVoteResponseVoteDenied). -/
def voteDenied (st : ReplicaState) (code : VoteError) (logged : Bool) :
    VoteResponse :=
  ⟨st.currentTerm, false, some code, none, none, logged⟩

/-- Translation of RaftConsensus::RequestVote.  The checks in source order:
the non-blocking update-lock acquisition when failure detection is enabled
(answering CONSENSUS_BUSY when the lock is held), the unknown-peer log line,
the live-leader check, the stale-candidate-term check, the already-voted
checks for an equal term, the term advance for a newer candidate term, the
last-logged-op-id comparison, and finally lease attachment, vote persistence
and the grant. -/
def requestVote (st : ReplicaState) (req : VoteRequest) (env : VoteEnv) :
    ReplicaState × VoteResponse :=
  if env.failureDetectionEnabled ∧ env.updateLockBusy then
    (st, voteDenied st VoteError.consensusBusy false)
  else
    let logged := ¬ env.activeConfigUuids.contains req.candidateUuid
    if ¬ req.ignoreLiveLeader ∧ env.leaderRecentlyHeard then
      (st, voteDenied st VoteError.leaderIsAlive logged)
    else if req.candidateTerm < st.currentTerm then
      (st, voteDenied st VoteError.invalidTerm logged)
    else if req.candidateTerm = st.currentTerm ∧ st.votedFor.isSome then
      if st.votedFor = some req.candidateUuid then
        (st, ⟨st.currentTerm, true, none, none, none, logged⟩)
      else
        (st, voteDenied st VoteError.alreadyVoted logged)
    else
      let st1 := if st.currentTerm < req.candidateTerm then
          (handleTermAdvance st req.candidateTerm).getD st
        else st
      if opIdLessThan req.lastReceived env.localLastLogged then
        (st1, voteDenied st1 VoteError.lastOpIdTooOld logged)
      else
        let leaseMs := env.remainingOldLeaderLeaseMs
        let htl := if env.oldLeaderHtLeaseExpiration ≠ htLeaseMinSentinel then
            some env.oldLeaderHtLeaseExpiration
          else none
        let st2 : ReplicaState := { st1 with votedFor := some req.candidateUuid }
        (st2, ⟨st2.currentTerm, true, none, leaseMs, htl, logged⟩)

/-- Abstract decision of a vote request. -/
inductive VoteDecision where
  | busy
  | leaderAlive
  | termTooOld
  | alreadyGrantedSame
  | alreadyVotedOther
  | lastOpIdTooOld
  | granted
deriving DecidableEq, Repr

/-- Advance the local term when the candidate's term is newer. -/
def advanceIfNewer (st : ReplicaState) (req : VoteRequest) : ReplicaState :=
  if st.currentTerm < req.candidateTerm then
    (handleTermAdvance st req.candidateTerm).getD st
  else st

/-- The outcome each decision produces, following the spec's wording: a
denial carries the current term and the named error code; the already-voted
grant re-sends a grant without touching state; a stale-log denial happens
after the term advance; a grant persists the vote after the term advance and
attaches any remaining old-leader lease duration and any hybrid-time lease
expiration distinct from the sentinel. -/
def applyVoteDecision (st : ReplicaState) (req : VoteRequest) (env : VoteEnv) :
    VoteDecision → ReplicaState × VoteResponse
  | VoteDecision.busy => (st, voteDenied st VoteError.consensusBusy false)
  | VoteDecision.leaderAlive =>
    (st, voteDenied st VoteError.leaderIsAlive
      (¬ env.activeConfigUuids.contains req.candidateUuid))
  | VoteDecision.termTooOld =>
    (st, voteDenied st VoteError.invalidTerm
      (¬ env.activeConfigUuids.contains req.candidateUuid))
  | VoteDecision.alreadyGrantedSame =>
    (st, ⟨st.currentTerm, true, none, none, none,
      ¬ env.activeConfigUuids.contains req.candidateUuid⟩)
  | VoteDecision.alreadyVotedOther =>
    (st, voteDenied st VoteError.alreadyVoted
      (¬ env.activeConfigUuids.contains req.candidateUuid))
  | VoteDecision.lastOpIdTooOld =>
    let st1 := advanceIfNewer st req
    (st1, voteDenied st1 VoteError.lastOpIdTooOld
      (¬ env.activeConfigUuids.contains req.candidateUuid))
  | VoteDecision.granted =>
    let st1 := advanceIfNewer st req
    let st2 : ReplicaState := { st1 with votedFor := some req.candidateUuid }
    (st2, ⟨st2.currentTerm, true, none, env.remainingOldLeaderLeaseMs,
      (if env.oldLeaderHtLeaseExpiration ≠ htLeaseMinSentinel then
        some env.oldLeaderHtLeaseExpiration else none),
      ¬ env.activeConfigUuids.contains req.candidateUuid⟩)

/-- The decision order exactly as the C3 claim lists it: a term-too-old
denial first, then the live-leader denial, then the remaining checks. -/
def voteDecisionClaimed (st : ReplicaState) (req : VoteRequest) (env : VoteEnv) :
    VoteDecision :=
  if env.failureDetectionEnabled ∧ env.updateLockBusy then VoteDecision.busy
  else if req.candidateTerm < st.currentTerm then VoteDecision.termTooOld
  else if ¬ req.ignoreLiveLeader ∧ env.leaderRecentlyHeard then
    VoteDecision.leaderAlive
  else if req.candidateTerm = st.currentTerm ∧ st.votedFor.isSome then
    (if st.votedFor = some req.candidateUuid then VoteDecision.alreadyGrantedSame
     else VoteDecision.alreadyVotedOther)
  else if opIdLessThan req.lastReceived env.localLastLogged then
    VoteDecision.lastOpIdTooOld
  else VoteDecision.granted

/-- The decision order as amended: the live-leader check precedes the
term-too-old check, matching the source. -/
def voteDecisionAmended (st : ReplicaState) (req : VoteRequest) (env : VoteEnv) :
    VoteDecision :=
  if env.failureDetectionEnabled ∧ env.updateLockBusy then VoteDecision.busy
  else if ¬ req.ignoreLiveLeader ∧ env.leaderRecentlyHeard then
    VoteDecision.leaderAlive
  else if req.candidateTerm < st.currentTerm then VoteDecision.termTooOld
  else if req.candidateTerm = st.currentTerm ∧ st.votedFor.isSome then
    (if st.votedFor = some req.candidateUuid then VoteDecision.alreadyGrantedSame
     else VoteDecision.alreadyVotedOther)
  else if opIdLessThan req.lastReceived env.localLastLogged then
    VoteDecision.lastOpIdTooOld
  else VoteDecision.granted

/-- Counterexample to C3 as stated: a candidate with a stale term arriving
while a valid leader was recently heard from (ignore_live_leader unset) is
denied LEADER_IS_ALIVE by the code, whereas the claim's listed order would
deny it for the stale term first. -/
theorem requestVote_order_counterexample :
    requestVote
      { currentTerm := 5, votedFor := none, role := Role.follower,
        leaderUuid := some 1, nextIndex := 0, pending := [],
        lastReceived := ⟨5, 4⟩, lastReceivedCurLeader := ⟨5, 4⟩,
        committed := ⟨5, 4⟩ }
      { candidateUuid := 2, candidateTerm := 1, lastReceived := ⟨5, 4⟩,
        ignoreLiveLeader := false }
      { failureDetectionEnabled := true, updateLockBusy := false,
        leaderRecentlyHeard := true, localLastLogged := ⟨5, 4⟩,
        activeConfigUuids := [1, 2], remainingOldLeaderLeaseMs := none,
        oldLeaderHtLeaseExpiration := 0 } ≠
    applyVoteDecision
      { currentTerm := 5, votedFor := none, role := Role.follower,
        leaderUuid := some 1, nextIndex := 0, pending := [],
        lastReceived := ⟨5, 4⟩, lastReceivedCurLeader := ⟨5, 4⟩,
        committed := ⟨5, 4⟩ }
      { candidateUuid := 2, candidateTerm := 1, lastReceived := ⟨5, 4⟩,
        ignoreLiveLeader := false }
      { failureDetectionEnabled := true, updateLockBusy := false,
        leaderRecentlyHeard := true, localLastLogged := ⟨5, 4⟩,
        activeConfigUuids := [1, 2], remainingOldLeaderLeaseMs := none,
        oldLeaderHtLeaseExpiration := 0 }
      (voteDecisionClaimed
        { currentTerm := 5, votedFor := none, role := Role.follower,
          leaderUuid := some 1, nextIndex := 0, pending := [],
          lastReceived := ⟨5, 4⟩, lastReceivedCurLeader := ⟨5, 4⟩,
          committed := ⟨5, 4⟩ }
        { candidateUuid := 2, candidateTerm := 1, lastReceived := ⟨5, 4⟩,
          ignoreLiveLeader := false }
        { failureDetectionEnabled := true, updateLockBusy := false,
          leaderRecentlyHeard := true, localLastLogged := ⟨5, 4⟩,
          activeConfigUuids := [1, 2], remainingOldLeaderLeaseMs := none,
          oldLeaderHtLeaseExpiration := 0 }) := by
  decide

/-- C3 (amended): RequestVote applies, in order, the busy fast path, the
live-leader check, the stale-term check, the equal-term already-voted checks
(granting iff the prior vote was for the same candidate), the term advance
for a newer candidate term (stepping down if leader), the last-logged-op-id
check, and otherwise persists the vote and grants, attaching any remaining
old-leader lease duration and hybrid-time lease expiration; each check
produces exactly the outcome listed in applyVoteDecision. -/
theorem requestVote_follows_amended_order (st : ReplicaState)
    (req : VoteRequest) (env : VoteEnv) :
    requestVote st req env =
      applyVoteDecision st req env (voteDecisionAmended st req env) := by
  unfold requestVote voteDecisionAmended applyVoteDecision advanceIfNewer
  dsimp only
  split_ifs <;> rfl

/-- C9: when leader failure detection is enabled and the coarse update lock
is held by a concurrent Update or vote, RequestVote answers immediately with
a CONSENSUS_BUSY denial carrying the current term, and the replica state
(persisted term and vote included) is unchanged. -/
theorem requestVote_busy_fast_path (st : ReplicaState) (req : VoteRequest)
    (env : VoteEnv)
    (hfd : env.failureDetectionEnabled = true)
    (hbusy : env.updateLockBusy = true) :
    requestVote st req env =
      (st, ⟨st.currentTerm, false, some VoteError.consensusBusy,
            none, none, false⟩) := by
  unfold requestVote
  rw [if_pos ⟨hfd, hbusy⟩]
  rfl

/-- Witness for C9 at a concrete state and request. -/
theorem requestVote_busy_fast_path_witness :
    requestVote
      { currentTerm := 7, votedFor := some 3, role := Role.follower,
        leaderUuid := some 3, nextIndex := 0, pending := [],
        lastReceived := ⟨7, 9⟩, lastReceivedCurLeader := ⟨7, 9⟩,
        committed := ⟨7, 8⟩ }
      { candidateUuid := 4, candidateTerm := 8, lastReceived := ⟨7, 9⟩,
        ignoreLiveLeader := true }
      { failureDetectionEnabled := true, updateLockBusy := true,
        leaderRecentlyHeard := false, localLastLogged := ⟨7, 9⟩,
        activeConfigUuids := [3, 4], remainingOldLeaderLeaseMs := none,
        oldLeaderHtLeaseExpiration := 0 } =
      ({ currentTerm := 7, votedFor := some 3, role := Role.follower,
         leaderUuid := some 3, nextIndex := 0, pending := [],
         lastReceived := ⟨7, 9⟩, lastReceivedCurLeader := ⟨7, 9⟩,
         committed := ⟨7, 8⟩ },
       ⟨7, false, some VoteError.consensusBusy, none, none, false⟩) :=
  requestVote_busy_fast_path _ _ _ rfl rfl

/-- The membership-independent part of a vote outcome: everything except the
informational unknown-peer log flag. -/
def voteOutcomeCore (p : ReplicaState × VoteResponse) :
    ReplicaState × Int × Bool × Option VoteError × Option Int × Option Int :=
  (p.1, p.2.responderTerm, p.2.voteGranted, p.2.errorCode,
   p.2.remainingLeaseDurationMs, p.2.leaderHtLeaseExpiration)

theorem requestVote_config_independent (st : ReplicaState) (req : VoteRequest)
    (env : VoteEnv) (cfg : List Nat) :
    voteOutcomeCore (requestVote st req { env with activeConfigUuids := cfg })
      = voteOutcomeCore (requestVote st req env) := by
  unfold requestVote voteOutcomeCore
  dsimp only
  split_ifs <;> rfl

/-- C10: a candidate absent from the active configuration is evaluated by
the same checks — the vote outcome does not depend on the configured uuids —
and such a candidate can be granted the vote. -/
theorem requestVote_nonmember_grantable (st : ReplicaState)
    (req : VoteRequest) (env : VoteEnv)
    (hmem : req.candidateUuid ∉ env.activeConfigUuids)
    (hbusy : ¬ (env.failureDetectionEnabled = true ∧ env.updateLockBusy = true))
    (hlive : req.ignoreLiveLeader = true ∨ env.leaderRecentlyHeard = false)
    (hterm : st.currentTerm < req.candidateTerm)
    (hlog : opIdLessThan req.lastReceived env.localLastLogged = false) :
    (requestVote st req env).2.voteGranted = true ∧
    (∀ cfg : List Nat,
      voteOutcomeCore (requestVote st req { env with activeConfigUuids := cfg })
        = voteOutcomeCore (requestVote st req env)) := by
  have hlive' : ¬ (¬ req.ignoreLiveLeader = true ∧ env.leaderRecentlyHeard = true) := by
    rcases hlive with h | h <;> simp [h]
  have ht1 : ¬ req.candidateTerm < st.currentTerm := by omega
  have ht2 : ¬ (req.candidateTerm = st.currentTerm ∧ st.votedFor.isSome) := by
    rintro ⟨h, _⟩; omega
  constructor
  · unfold requestVote
    rw [if_neg (by simpa using hbusy)]
    dsimp only
    rw [if_neg hlive', if_neg ht1, if_neg ht2, if_neg (by simp [hlog])]
  · intro cfg
    exact requestVote_config_independent st req env cfg

/-- Witness for C10: a candidate (uuid 9) not in the active config is
granted the vote. -/
theorem requestVote_nonmember_grantable_witness :
    (requestVote
      { currentTerm := 3, votedFor := some 1, role := Role.follower,
        leaderUuid := some 1, nextIndex := 0, pending := [],
        lastReceived := ⟨3, 6⟩, lastReceivedCurLeader := ⟨3, 6⟩,
        committed := ⟨3, 6⟩ }
      { candidateUuid := 9, candidateTerm := 4, lastReceived := ⟨3, 6⟩,
        ignoreLiveLeader := false }
      { failureDetectionEnabled := true, updateLockBusy := false,
        leaderRecentlyHeard := false, localLastLogged := ⟨3, 6⟩,
        activeConfigUuids := [1, 2], remainingOldLeaderLeaseMs := some 1500,
        oldLeaderHtLeaseExpiration := 0 }).2.voteGranted = true :=
  (requestVote_nonmember_grantable
    { currentTerm := 3, votedFor := some 1, role := Role.follower,
      leaderUuid := some 1, nextIndex := 0, pending := [],
      lastReceived := ⟨3, 6⟩, lastReceivedCurLeader := ⟨3, 6⟩,
      committed := ⟨3, 6⟩ }
    { candidateUuid := 9, candidateTerm := 4, lastReceived := ⟨3, 6⟩,
      ignoreLiveLeader := false }
    { failureDetectionEnabled := true, updateLockBusy := false,
      leaderRecentlyHeard := false, localLastLogged := ⟨3, 6⟩,
      activeConfigUuids := [1, 2], remainingOldLeaderLeaseMs := some 1500,
      oldLeaderHtLeaseExpiration := 0 }
    (by decide) (by decide) (Or.inr rfl) (by decide) (by decide)).1

/-! ## C2: groundwork — reachable-state invariants, well-formed requests,
and helper lemmas about the pending map -/

/-- Invariants of a reachable replica state (spec section 3, ReplicaState
invariants): the pending map has one round per index; every pending round
lies in (committed, last_received]; every index in that window is pending;
the committed id never exceeds the last received id; the last received op is
itself pending when the window is nonempty; indices are nonnegative. -/
def StateInv (st : ReplicaState) : Prop :=
  st.pending.Pairwise (fun a b => a.index ≠ b.index) ∧
  (∀ r ∈ st.pending, st.committed.index < r.index ∧ r.index ≤ st.lastReceived.index) ∧
  (∀ i : Int, st.committed.index < i → i ≤ st.lastReceived.index →
    ∃ r ∈ st.pending, r.index = i) ∧
  st.committed.index ≤ st.lastReceived.index ∧
  (st.pending = [] → st.lastReceived.index = st.committed.index) ∧
  (st.pending ≠ [] → st.lastReceived ∈ st.pending) ∧
  0 ≤ st.committed.index

/-- Two op ids drawn from one coherent log history: their index order and
lexicographic order agree, and equal indices force equal ids (log matching
property, spec glossary). -/
def opIdCoherent (a b : OpId) : Prop :=
  (a.index < b.index → opIdLessThan a b = true) ∧
  (b.index < a.index → opIdLessThan b a = true) ∧
  (a.index = b.index → a = b)

/-- A well-formed UpdateConsensus request as a real leader produces it: the
ops follow the preceding id with terms nondecreasing and indices consecutive;
the leader's committed index is coherent with the preceding id and every op;
and all carried op ids are at or above the minimum sentinel. -/
def ReqWF (req : ConsensusRequest) : Prop :=
  List.Chain' (fun a b => a.term ≤ b.term ∧ b.index = a.index + 1)
    (req.precedingId :: req.ops) ∧
  (∀ x ∈ req.precedingId :: req.ops, opIdCoherent req.committedIndex x) ∧
  opIdLe minimumOpId req.committedIndex ∧
  (∀ x ∈ req.precedingId :: req.ops, opIdLe minimumOpId x)

instance (a b : OpId) : Decidable (opIdCoherent a b) :=
  inferInstanceAs (Decidable
    ((a.index < b.index → opIdLessThan a b = true) ∧
     (b.index < a.index → opIdLessThan b a = true) ∧
     (a.index = b.index → a = b)))

instance (req : ConsensusRequest) : Decidable (ReqWF req) :=
  inferInstanceAs (Decidable
    (List.Chain' (fun (a b : OpId) => a.term ≤ b.term ∧ b.index = a.index + 1)
      (req.precedingId :: req.ops) ∧
     (∀ x ∈ req.precedingId :: req.ops, opIdCoherent req.committedIndex x) ∧
     opIdLe minimumOpId req.committedIndex ∧
     (∀ x ∈ req.precedingId :: req.ops, opIdLe minimumOpId x)))

theorem opIdLessThan_of_not_le {a b : OpId} (h : ¬ opIdLe a b) :
    opIdLessThan b a = true := by
  unfold opIdLe at h
  unfold opIdLessThan
  push_neg at h
  by_cases ht : b.term = a.term
  · simp [ht]
    have := h.2 ht.symm
    omega
  · simp [ht]
    have h1 := h.1
    have h2 : ¬ a.term = b.term := fun e => ht e.symm
    omega

theorem not_opIdLessThan_of_le {a b : OpId} (h : opIdLe a b) :
    opIdLessThan b a = false := by
  rcases h with h | ⟨h1, h2⟩ <;>
    (unfold opIdLessThan; by_cases ht : b.term = a.term <;> simp [ht] <;> omega)

/-- Members of a pending map with pairwise distinct indices are determined
by their index. -/
theorem pending_unique {l : List OpId}
    (hd : l.Pairwise (fun a b => a.index ≠ b.index))
    {a b : OpId} (ha : a ∈ l) (hb : b ∈ l) (hi : a.index = b.index) : a = b := by
  by_contra hne
  have hsym : Symmetric (fun (x y : OpId) => x.index ≠ y.index) :=
    fun x y h => Ne.symm h
  exact (List.Pairwise.forall hsym hd ha hb hne) hi

theorem lookupPending_mem {st : ReplicaState} {i : Int} {r : OpId}
    (h : lookupPending st i = some r) : r ∈ st.pending ∧ r.index = i := by
  unfold lookupPending at h
  refine ⟨List.mem_of_find?_eq_some h, ?_⟩
  have := List.find?_some h
  simpa using this

theorem lookupPending_of_mem {st : ReplicaState}
    (hd : st.pending.Pairwise (fun a b => a.index ≠ b.index))
    {r : OpId} (hr : r ∈ st.pending) : lookupPending st r.index = some r := by
  unfold lookupPending
  cases hfind : st.pending.find? (fun q => q.index = r.index) with
  | none =>
    rw [List.find?_eq_none] at hfind
    exact absurd (by simp : (decide (r.index = r.index)) = true)
      (by simpa using hfind r hr)
  | some q =>
    have hq := List.find?_some hfind
    have hqm := List.mem_of_find?_eq_some hfind
    simp only [decide_eq_true_eq] at hq
    rw [pending_unique hd hqm hr hq]

theorem lookupPending_isSome_of_mem {st : ReplicaState} {r : OpId}
    (hr : r ∈ st.pending) : (lookupPending st r.index).isSome = true := by
  unfold lookupPending
  rw [List.find?_isSome]
  exact ⟨r, hr, by simp⟩

theorem maxIndexOpId_spec (l : List OpId) : ∀ (d : OpId),
    (maxIndexOpId l d = d ∧ ∀ r ∈ l, r.index ≤ d.index) ∨
    (maxIndexOpId l d ∈ l ∧ d.index ≤ (maxIndexOpId l d).index ∧
      ∀ r ∈ l, r.index ≤ (maxIndexOpId l d).index) := by
  induction l with
  | nil => intro d; left; exact ⟨rfl, by simp⟩
  | cons x t ih =>
    intro d
    unfold maxIndexOpId
    simp only [List.foldl_cons]
    by_cases hx : d.index < x.index
    · rw [if_pos hx]
      rcases ih x with ⟨h1, h2⟩ | ⟨h1, h2, h3⟩
      · right
        unfold maxIndexOpId at h1
        rw [h1]
        refine ⟨List.mem_cons_self x t, le_of_lt hx, ?_⟩
        intro r hr
        rcases List.mem_cons.mp hr with rfl | hr
        · exact le_refl _
        · exact h2 r hr
      · right
        unfold maxIndexOpId at h1 h2 h3
        refine ⟨List.mem_cons_of_mem x h1, le_trans (le_of_lt hx) h2, ?_⟩
        intro r hr
        rcases List.mem_cons.mp hr with rfl | hr
        · exact h2
        · exact h3 r hr
    · rw [if_neg hx]
      rcases ih d with ⟨h1, h2⟩ | ⟨h1, h2, h3⟩
      · left
        unfold maxIndexOpId at h1
        refine ⟨h1, ?_⟩
        intro r hr
        rcases List.mem_cons.mp hr with rfl | hr
        · omega
        · exact h2 r hr
      · right
        unfold maxIndexOpId at h1 h2 h3
        refine ⟨List.mem_cons_of_mem x h1, h2, ?_⟩
        intro r hr
        rcases List.mem_cons.mp hr with rfl | hr
        · omega
        · exact h3 r hr

/-- With distinct indices, the fold picks exactly the element of maximal
index once some element exceeds the seed. -/
theorem maxIndexOpId_eq {l : List OpId} {d a : OpId}
    (hd : l.Pairwise (fun x y => x.index ≠ y.index))
    (ha : a ∈ l) (hmax : ∀ r ∈ l, r.index ≤ a.index) (hda : d.index < a.index) :
    maxIndexOpId l d = a := by
  rcases maxIndexOpId_spec l d with ⟨h1, h2⟩ | ⟨h1, h2, h3⟩
  · exact absurd (h2 a ha) (by omega)
  · exact pending_unique hd h1 ha (le_antisymm (hmax _ h1) (h3 a ha))

instance : IsTrans OpId (fun a b : OpId => a.index < b.index) :=
  ⟨fun _ _ _ h1 h2 => lt_trans h1 h2⟩

theorem chain_pairwise_lt {l : List OpId}
    (h : List.Chain' (fun a b => a.term ≤ b.term ∧ b.index = a.index + 1) l) :
    l.Pairwise (fun a b => a.index < b.index) :=
  List.chain'_iff_pairwise.mp (h.imp (fun a b hab => by omega))

theorem getLast?_getD_cons (l : List OpId) (y x : OpId) :
    ((y :: l).getLast?.getD x) = (l.getLast?.getD y) := by
  cases l with
  | nil => rfl
  | cons a t => rw [List.getLast?_cons_cons]; rfl

theorem takeLast_cons_drop (l : List OpId) : ∀ (x : OpId) (k : Nat),
    k ≤ l.length → ((l.take k).getLast?.getD x) :: l.drop k = (x :: l).drop k := by
  induction l with
  | nil =>
    intro x k hk
    have hk0 : k = 0 := Nat.le_zero.mp (by simpa using hk)
    subst hk0
    rfl
  | cons y t ih =>
    intro x k hk
    cases k with
    | zero => rfl
    | succ m =>
      simp only [List.take_succ_cons, List.drop_succ_cons]
      rw [getLast?_getD_cons]
      exact ih y m (by simpa using hk)

theorem checkSequence_bool (c : OpId → OpId → Bool) :
    ∀ (t : List OpId) (y : OpId) (b : Bool),
    (t.foldl (fun (acc : OpId × Bool) m => (m, acc.2 && c acc.1 m)) (y, b)).2
      = (b && (t.foldl (fun (acc : OpId × Bool) m => (m, acc.2 && c acc.1 m)) (y, true)).2) := by
  intro t
  induction t with
  | nil => intro y b; simp
  | cons m t ih =>
    intro y b
    simp only [List.foldl_cons]
    rw [ih m (b && c y m), ih m (true && c y m)]
    simp [Bool.and_assoc]

theorem checkSequence_cons (x y : OpId) (t : List OpId) :
    checkSequence x (y :: t) = (checkOpInSequence x y && checkSequence y t) := by
  unfold checkSequence
  simp only [List.foldl_cons]
  rw [checkSequence_bool]
  simp

theorem checkSequence_of_chain : ∀ (l : List OpId) (x : OpId),
    List.Chain' (fun a b => a.term ≤ b.term ∧ b.index = a.index + 1) (x :: l) →
    checkSequence x l = true := by
  intro l
  induction l with
  | nil => intro x _; rfl
  | cons y t ih =>
    intro x h
    rw [checkSequence_cons]
    rcases List.chain'_cons.mp h with ⟨hxy, ht⟩
    rw [ih y ht]
    unfold checkOpInSequence
    simp [hxy.1, hxy.2]

theorem dedupFold_keepAll (st : ReplicaState) :
    ∀ (ops : List OpId) (acc : DedupAcc),
    (∀ op ∈ ops, ¬ op.index ≤ st.committed.index ∧ ¬ op.index ≤ acc.dedupUpTo) →
    ops.foldl (dedupStep st) acc = { acc with messages := acc.messages ++ ops } := by
  intro ops
  induction ops with
  | nil => intro acc _; simp
  | cons op t ih =>
    intro acc hcond
    have h0 := hcond op (List.mem_cons_self op t)
    simp only [List.foldl_cons]
    have hstep : dedupStep st acc op = { acc with messages := acc.messages ++ [op] } := by
      unfold dedupStep
      rw [if_neg h0.1, if_neg h0.2]
    rw [hstep,
      ih { acc with messages := acc.messages ++ [op] }
        (fun o ho => hcond o (List.mem_cons_of_mem op ho))]
    simp

theorem dedupFold_run (st : ReplicaState) :
    ∀ (ops : List OpId) (prec : OpId),
    ((prec :: ops).Pairwise (fun a b => a.index < b.index)) →
    ∃ k, k ≤ ops.length ∧
    (ops.foldl (dedupStep st) ⟨prec, st.lastReceived.index, []⟩).messages
      = ops.drop k ∧
    (ops.foldl (dedupStep st) ⟨prec, st.lastReceived.index, []⟩).preceding
      = (ops.take k).getLast?.getD prec ∧
    (∀ op ∈ ops.take k, op.index ≤ st.committed.index ∨ op ∈ st.pending) ∧
    (∀ m1, (ops.drop k).head? = some m1 →
      ¬ m1.index ≤ st.committed.index ∧
      (st.lastReceived.index < m1.index ∨
       (m1.index ≤ st.lastReceived.index ∧ lookupPending st m1.index ≠ some m1))) := by
  intro ops
  induction ops with
  | nil =>
    intro prec _
    exact ⟨0, by simp, rfl, rfl, by simp, by simp⟩
  | cons op t ih =>
    intro prec hpw
    have hpwt : (op :: t).Pairwise (fun a b => a.index < b.index) := hpw.of_cons
    have hgt : ∀ o ∈ t, op.index < o.index := fun o ho => (List.pairwise_cons.mp hpwt).1 o ho
    simp only [List.foldl_cons]
    by_cases hc : op.index ≤ st.committed.index
    · have hstep : dedupStep st ⟨prec, st.lastReceived.index, []⟩ op
          = ⟨op, st.lastReceived.index, []⟩ := by
        unfold dedupStep; rw [if_pos hc]
      rw [hstep]
      obtain ⟨k, hk, hm, hp, htk, hhd⟩ := ih op hpwt
      refine ⟨k + 1, by simpa using Nat.succ_le_succ hk, ?_, ?_, ?_, ?_⟩
      · simpa using hm
      · rw [List.take_succ_cons, getLast?_getD_cons]; exact hp
      · intro o ho
        rcases List.mem_cons.mp (by simpa using ho) with h | h
        · exact Or.inl (h ▸ hc)
        · exact htk o h
      · simpa using hhd
    · by_cases hup : op.index ≤ st.lastReceived.index
      · cases hlook : lookupPending st op.index with
        | some r =>
          by_cases hr : r = op
          · have hstep : dedupStep st ⟨prec, st.lastReceived.index, []⟩ op
                = ⟨op, st.lastReceived.index, []⟩ := by
              unfold dedupStep
              rw [if_neg hc, if_pos hup, hlook]
              simp [hr]
            rw [hstep]
            obtain ⟨k, hk, hm, hp, htk, hhd⟩ := ih op hpwt
            refine ⟨k + 1, by simpa using Nat.succ_le_succ hk, ?_, ?_, ?_, ?_⟩
            · simpa using hm
            · rw [List.take_succ_cons, getLast?_getD_cons]; exact hp
            · intro o ho
              rcases List.mem_cons.mp (by simpa using ho) with h | h
              · exact Or.inr (h ▸ hr ▸ (lookupPending_mem hlook).1)
              · exact htk o h
            · simpa using hhd
          · have hstep : dedupStep st ⟨prec, st.lastReceived.index, []⟩ op
                = ⟨prec, op.index, [op]⟩ := by
              unfold dedupStep
              rw [if_neg hc, if_pos hup, hlook]
              simp [hr]
            rw [hstep]
            have hall := dedupFold_keepAll st t ⟨prec, op.index, [op]⟩
              (fun o ho => ⟨fun hle => hc (le_trans (le_of_lt (hgt o ho)) hle),
                fun hle => absurd hle (not_le.mpr (hgt o ho))⟩)
            rw [hall]
            refine ⟨0, by simp, by simp, by simp, by simp, ?_⟩
            intro m1 hm1
            simp only [List.drop_zero, List.head?_cons, Option.some.injEq] at hm1
            subst hm1
            refine ⟨hc, Or.inr ⟨hup, ?_⟩⟩
            rw [hlook]
            exact fun h => hr (Option.some.injEq _ _ ▸ h)
        | none =>
          have hstep : dedupStep st ⟨prec, st.lastReceived.index, []⟩ op
              = ⟨prec, op.index, [op]⟩ := by
            unfold dedupStep
            rw [if_neg hc, if_pos hup, hlook]
            simp
          rw [hstep]
          have hall := dedupFold_keepAll st t ⟨prec, op.index, [op]⟩
            (fun o ho => ⟨fun hle => hc (le_trans (le_of_lt (hgt o ho)) hle),
              fun hle => absurd hle (not_le.mpr (hgt o ho))⟩)
          rw [hall]
          refine ⟨0, by simp, by simp, by simp, by simp, ?_⟩
          intro m1 hm1
          simp only [List.drop_zero, List.head?_cons, Option.some.injEq] at hm1
          subst hm1
          exact ⟨hc, Or.inr ⟨hup, by rw [hlook]; exact fun h => Option.noConfusion h⟩⟩
      · have hstep : dedupStep st ⟨prec, st.lastReceived.index, []⟩ op
            = ⟨prec, st.lastReceived.index, [op]⟩ := by
          unfold dedupStep
          rw [if_neg hc, if_neg hup]
          simp
        rw [hstep]
        have hall := dedupFold_keepAll st t ⟨prec, st.lastReceived.index, [op]⟩
          (fun o ho => ⟨fun hle => hc (le_trans (le_of_lt (hgt o ho)) hle),
            fun hle => hup (le_trans (le_of_lt (hgt o ho)) hle)⟩)
        rw [hall]
        refine ⟨0, by simp, by simp, by simp, by simp, ?_⟩
        intro m1 hm1
        simp only [List.drop_zero, List.head?_cons, Option.some.injEq] at hm1
        subst hm1
        exact ⟨hc, Or.inl (not_le.mp hup)⟩

/-- Call-2 dedup: when every op is already committed or exactly pending, the
whole request deduplicates to nothing and the preceding id advances to the
last op. -/
theorem dedupFold_dropAll (st : ReplicaState)
    (hd : st.pending.Pairwise (fun a b => a.index ≠ b.index)) :
    ∀ (ops : List OpId) (prec : OpId),
    (∀ op ∈ ops, op.index ≤ st.committed.index ∨
      (op ∈ st.pending ∧ op.index ≤ st.lastReceived.index)) →
    ops.foldl (dedupStep st) ⟨prec, st.lastReceived.index, []⟩
      = ⟨ops.getLast?.getD prec, st.lastReceived.index, []⟩ := by
  intro ops
  induction ops with
  | nil => intro prec _; rfl
  | cons op t ih =>
    intro prec hcond
    simp only [List.foldl_cons]
    have h0 := hcond op (List.mem_cons_self op t)
    have hstep : dedupStep st ⟨prec, st.lastReceived.index, []⟩ op
        = ⟨op, st.lastReceived.index, []⟩ := by
      unfold dedupStep
      rcases h0 with h | ⟨hmem, hle⟩
      · rw [if_pos h]
      · by_cases hc : op.index ≤ st.committed.index
        · rw [if_pos hc]
        · rw [if_neg hc, if_pos hle, lookupPending_of_mem hd hmem]; simp
    rw [hstep, ih op (fun o ho => hcond o (List.mem_cons_of_mem op ho))]
    rw [getLast?_getD_cons]

/-! ## Order and list helpers for the update path -/

theorem opIdLessThan_irrefl (a : OpId) : opIdLessThan a a = false := by
  unfold opIdLessThan; simp

theorem opIdLessThan_asymm {a b : OpId} (h : opIdLessThan a b = true) :
    opIdLessThan b a = false := by
  unfold opIdLessThan at *
  by_cases ht : a.term = b.term <;> simp [ht, Ne.symm] at * <;> omega

theorem coherent_lt_of_lex {a b : OpId} (hco : opIdCoherent a b)
    (h : opIdLessThan a b = true) : a.index < b.index := by
  rcases lt_trichotomy a.index b.index with hlt | heq | hgt
  · exact hlt
  · exact absurd h (by rw [hco.2.2 heq, opIdLessThan_irrefl]; simp)
  · exact absurd h (by rw [opIdLessThan_asymm (hco.2.1 hgt)]; simp)

theorem copyIf_cases (a b : OpId) :
    copyIfOpIdLessThan a b = a ∨ copyIfOpIdLessThan a b = b := by
  unfold copyIfOpIdLessThan; split <;> simp

theorem getLastD_mem (l : List OpId) (d : OpId) :
    l.getLast?.getD d ∈ d :: l := by
  cases h : l.getLast? with
  | none => simp
  | some a =>
    simp only [Option.getD_some]
    exact List.mem_cons_of_mem d (List.mem_of_mem_getLast? h)

theorem chain'_drop {R : OpId → OpId → Prop} :
    ∀ (k : Nat) (l : List OpId), List.Chain' R l → List.Chain' R (l.drop k) := by
  intro k
  induction k with
  | zero => intro l h; simpa using h
  | succ m ih =>
    intro l h
    cases l with
    | nil => simp
    | cons x t => exact ih t h.tail

/-- A run of consecutive op ids: every member lies between the head and the
last element, and every index in that range is realized. -/
theorem consec_facts :
    ∀ (t : List OpId) (x : OpId),
    List.Chain' (fun a b => b.index = a.index + 1) (x :: t) →
    (∀ m ∈ x :: t, x.index ≤ m.index) ∧
    (∀ L, (x :: t).getLast? = some L →
      (∀ m ∈ x :: t, m.index ≤ L.index) ∧
      (∀ i : Int, x.index ≤ i → i ≤ L.index → ∃ m ∈ x :: t, m.index = i)) := by
  intro t
  induction t with
  | nil =>
    intro x _
    refine ⟨?_, ?_⟩
    · intro m hm
      have hmx : m = x := by simpa using hm
      subst hmx
      exact le_refl _
    · intro L hL
      have hLx : x = L := by simpa using hL
      subst hLx
      refine ⟨?_, ?_⟩
      · intro m hm
        have hmx : m = x := by simpa using hm
        subst hmx
        exact le_refl _
      · intro i hi1 hi2
        exact ⟨x, by simp, by omega⟩
  | cons y t' ih =>
    intro x hch
    have hxy : y.index = x.index + 1 := (List.chain'_cons.mp hch).1
    have hih := ih y (List.chain'_cons.mp hch).2
    refine ⟨?_, ?_⟩
    · intro m hm
      rcases List.mem_cons.mp hm with hmx | hm
      · subst hmx; exact le_refl _
      · have := hih.1 m hm; omega
    · intro L hL
      rw [List.getLast?_cons_cons] at hL
      have hL' := hih.2 L hL
      have hyL : y.index ≤ L.index :=
        hih.1 L (List.mem_of_mem_getLast? hL)
      refine ⟨?_, ?_⟩
      · intro m hm
        rcases List.mem_cons.mp hm with hmx | hm
        · subst hmx; omega
        · exact hL'.1 m hm
      · intro i hi1 hi2
        by_cases hx : i = x.index
        · exact ⟨x, by simp, hx.symm⟩
        · obtain ⟨m, hm, hmi⟩ := hL'.2 i (by omega) hi2
          exact ⟨m, List.mem_cons_of_mem x hm, hmi⟩

/-! ## Shape and invariant preservation of the ReplicaState mutators -/

theorem allIndexesPending_spec {st : ReplicaState} {t : OpId}
    (h : allIndexesPending st t = true) :
    ∀ i : Int, st.committed.index < i → i ≤ t.index →
      (lookupPending st i).isSome = true := by
  unfold allIndexesPending at h
  rw [List.all_eq_true] at h
  intro i hi1 hi2
  have hk : (i - st.committed.index - 1).toNat
      < (t.index - st.committed.index).toNat := by omega
  have hmem := h ((i - st.committed.index - 1).toNat) (List.mem_range.mpr hk)
  have hcast : st.committed.index + 1 + ((i - st.committed.index - 1).toNat : Int)
      = i := by
    rw [Int.toNat_of_nonneg (by omega)]; ring
  rw [hcast] at hmem
  simpa using hmem

theorem advance_shape {st : ReplicaState} {t : OpId} {st' : ReplicaState}
    {ch : Bool} (h : advanceCommittedIndex st t = some (st', ch)) :
    (st' = st ∧ ch = false ∧ t.index ≤ st.committed.index) ∨
    (st' = { st with committed := t,
                     pending := st.pending.filter
                       (fun r => ¬ r.index ≤ t.index) } ∧
     ch = true ∧ st.committed.index < t.index ∧
     allIndexesPending st t = true) := by
  unfold advanceCommittedIndex at h
  by_cases h1 : t.index ≤ st.committed.index
  · rw [if_pos h1] at h
    simp only [Option.some.injEq, Prod.mk.injEq] at h
    exact Or.inl ⟨h.1.symm, h.2.symm, h1⟩
  · rw [if_neg h1] at h
    by_cases h2 : allIndexesPending st t = true
    · rw [if_pos h2] at h
      simp only [Option.some.injEq, Prod.mk.injEq] at h
      exact Or.inr ⟨h.1.symm, h.2.symm, by omega, h2⟩
    · simp only [h2, if_false] at h
      exact absurd h (by simp)

theorem lookupPending_isSome_exists {st : ReplicaState} {i : Int}
    (h : (lookupPending st i).isSome = true) :
    ∃ r ∈ st.pending, r.index = i := by
  rw [Option.isSome_iff_exists] at h
  obtain ⟨r, hr⟩ := h
  exact ⟨r, (lookupPending_mem hr).1, (lookupPending_mem hr).2⟩

theorem advance_inv {st : ReplicaState} {t : OpId} {st' : ReplicaState}
    {ch : Bool} (hinv : StateInv st)
    (h : advanceCommittedIndex st t = some (st', ch)) : StateInv st' := by
  rcases advance_shape h with ⟨rfl, _, _⟩ | ⟨rfl, _, hlt, hall⟩
  · exact hinv
  · obtain ⟨hd, hb, hc, hcr, hemp, hne, hnn⟩ := hinv
    have htR : t.index ≤ st.lastReceived.index := by
      obtain ⟨r, hr, hri⟩ := lookupPending_isSome_exists
        (allIndexesPending_spec hall t.index hlt (le_refl _))
      have := (hb r hr).2; omega
    refine ⟨?_, ?_, ?_, ?_, ?_, ?_, ?_⟩
    · exact hd.sublist (List.filter_sublist _)
    · intro r hr
      rw [List.mem_filter] at hr
      have h1 := (hb r hr.1).2
      have h2 : ¬ r.index ≤ t.index := by simpa using hr.2
      exact ⟨by simpa using h2, h1⟩
    · intro i hi1 hi2
      simp only at hi1
      obtain ⟨r, hr, hri⟩ := hc i (by omega) hi2
      exact ⟨r, List.mem_filter.mpr ⟨hr, by simp; omega⟩, hri⟩
    · simpa using htR
    · intro hpe
      dsimp only at hpe ⊢
      have hRp : st.lastReceived ∈ st.pending := by
        apply hne
        intro he
        obtain ⟨r, hr, _⟩ := lookupPending_isSome_exists
          (allIndexesPending_spec hall t.index hlt (le_refl _))
        rw [he] at hr
        simp at hr
      have hRle : st.lastReceived.index ≤ t.index := by
        by_contra hgt
        have hmem : st.lastReceived ∈
            List.filter (fun r => decide ¬ r.index ≤ t.index) st.pending :=
          List.mem_filter.mpr ⟨hRp, by simp; omega⟩
        rw [hpe] at hmem
        simp at hmem
      omega
    · intro hpne
      dsimp only at hpne ⊢
      have hpne0 : st.pending ≠ [] := by
        intro he; rw [he] at hpne; simp at hpne
      have hRp := hne hpne0
      rw [List.mem_filter]
      refine ⟨hRp, ?_⟩
      by_cases hRt : st.lastReceived.index ≤ t.index
      · exfalso
        apply hpne
        rw [List.filter_eq_nil_iff]
        intro r hr
        have := (hb r hr).2
        simp only [decide_eq_true_eq]
        omega
      · simp only [decide_eq_true_eq]
        omega
    · simp only; omega

theorem advance_pending_fate {st : ReplicaState} {t : OpId}
    {st' : ReplicaState} {ch : Bool}
    (h : advanceCommittedIndex st t = some (st', ch)) {r : OpId}
    (hr : r ∈ st.pending) : r ∈ st'.pending ∨ r.index ≤ st'.committed.index := by
  rcases advance_shape h with ⟨rfl, _, _⟩ | ⟨rfl, _, _, _⟩
  · exact Or.inl hr
  · by_cases hle : r.index ≤ t.index
    · exact Or.inr (by simpa using hle)
    · exact Or.inl (List.mem_filter.mpr ⟨hr, by simpa using hle⟩)

theorem abort_inv {st : ReplicaState} (hinv : StateInv st) (idx : Int) :
    StateInv (abortOpsAfter st idx) := by
  obtain ⟨hd, hb, hc, hcr, hemp, hne, hnn⟩ := hinv
  unfold abortOpsAfter
  dsimp only
  by_cases hk : (st.pending.filter (fun r => r.index ≤ idx)).isEmpty = true
  · rw [if_pos hk]
    have hknil : st.pending.filter (fun r => r.index ≤ idx) = [] :=
      List.isEmpty_iff.mp hk
    refine ⟨?_, ?_, ?_, ?_, ?_, ?_, ?_⟩
    · exact hd.sublist (List.filter_sublist _)
    · intro r hr; rw [hknil] at hr; simp at hr
    · intro i hi1 hi2; simp only at hi1 hi2; omega
    · simp
    · intro _; rfl
    · intro hpne; simp [hknil] at hpne
    · simpa using hnn
  · rw [if_neg hk]
    have hknn : st.pending.filter (fun r => r.index ≤ idx) ≠ [] := by
      intro he; rw [he] at hk; simp at hk
    have hmax := maxIndexOpId_spec (st.pending.filter (fun r => r.index ≤ idx))
      minimumOpId
    obtain ⟨q, hq⟩ := List.exists_mem_of_ne_nil _ hknn
    have hqp := List.mem_filter.mp hq
    have hq1 := (hb q hqp.1).1
    rcases hmax with ⟨_, hall⟩ | ⟨hmem, _, hall⟩
    · exfalso
      have := hall q hq
      simp only [minimumOpId] at this
      omega
    · have hmemp := List.mem_filter.mp hmem
      refine ⟨?_, ?_, ?_, ?_, ?_, ?_, ?_⟩
      · exact hd.sublist (List.filter_sublist _)
      · intro r hr
        have hrp := List.mem_filter.mp hr
        exact ⟨(hb r hrp.1).1, hall r hr⟩
      · intro i hi1 hi2
        simp only at hi1 hi2
        have hmb := (hb _ hmemp.1).2
        obtain ⟨r, hr, hri⟩ := hc i hi1 (by omega)
        refine ⟨r, List.mem_filter.mpr ⟨hr, ?_⟩, hri⟩
        have : (maxIndexOpId (st.pending.filter (fun x => x.index ≤ idx))
            minimumOpId).index ≤ idx := by simpa using hmemp.2
        simp; omega
      · exact (hb _ hmemp.1).1.le
      · intro hpe
        dsimp only at hpe
        rw [hpe] at hmem; simp at hmem
      · intro _; exact hmem
      · simpa using hnn

theorem copyIf_pos {a b : OpId} (h : opIdLessThan a b = true) :
    copyIfOpIdLessThan a b = a := by
  unfold copyIfOpIdLessThan; rw [h]; simp

theorem copyIf_neg {a b : OpId} (h : opIdLessThan a b = false) :
    copyIfOpIdLessThan a b = b := by
  unfold copyIfOpIdLessThan; rw [h]; simp

theorem advance_noop {st : ReplicaState} {t : OpId}
    (h : t.index ≤ st.committed.index) :
    advanceCommittedIndex st t = some (st, false) := by
  unfold advanceCommittedIndex; rw [if_pos h]

theorem enqueuePrepares_nil (st : ReplicaState) :
    enqueuePrepares st [] = (st, []) := rfl

theorem enqueuePrepares_success :
    ∀ (msgs : List OpId) (st : ReplicaState),
    msgs.Pairwise (fun a b => a.index < b.index) →
    (∀ m ∈ msgs, st.committed.index < m.index) →
    (∀ m ∈ msgs, ∀ r ∈ st.pending, r.index < m.index) →
    enqueuePrepares st msgs
      = ({ st with pending := msgs.reverse ++ st.pending }, msgs) := by
  intro msgs
  induction msgs with
  | nil => intro st _ _ _; simp [enqueuePrepares]
  | cons m rest ih =>
    intro st hpw hcm hpr
    have hlook : lookupPending st m.index = none := by
      unfold lookupPending
      rw [List.find?_eq_none]
      intro r hr
      have := hpr m (List.mem_cons_self m rest) r hr
      simp
      omega
    have hfilt : st.pending.filter (fun q => q.index ≠ m.index) = st.pending := by
      apply List.filter_eq_self.mpr
      intro r hr
      have := hpr m (List.mem_cons_self m rest) r hr
      simp
      omega
    have hadd : addPendingOperation st m
        = some { st with pending := m :: st.pending } := by
      unfold addPendingOperation
      rw [if_neg (not_le.mpr (hcm m (List.mem_cons_self m rest))), hlook, hfilt]
    show (match addPendingOperation st m with
          | some st' =>
            let r := enqueuePrepares st' rest
            (r.1, m :: r.2)
          | none => (st, []))
        = ({ st with pending := (m :: rest).reverse ++ st.pending }, m :: rest)
    rw [hadd]
    dsimp only
    rw [ih { st with pending := m :: st.pending } hpw.of_cons
      (fun m' hm' => hcm m' (List.mem_cons_of_mem m hm'))
      (fun m' hm' r hr => by
        rcases List.mem_cons.mp hr with hrm | hrp
        · rw [hrm]
          exact (List.pairwise_cons.mp hpw).1 m' hm'
        · exact hpr m' (List.mem_cons_of_mem m hm') r hrp)]
    simp

theorem abort_lastReceived_le {st : ReplicaState} (hinv : StateInv st)
    {idx : Int} (h : st.committed.index ≤ idx) :
    (abortOpsAfter st idx).lastReceived.index ≤ idx := by
  obtain ⟨hd, hb, hc, hcr, hemp, hne, hnn⟩ := hinv
  unfold abortOpsAfter
  dsimp only
  by_cases hk : (st.pending.filter (fun r => r.index ≤ idx)).isEmpty = true
  · rw [if_pos hk]; exact h
  · rw [if_neg hk]
    have hknn : st.pending.filter (fun r => r.index ≤ idx) ≠ [] := by
      intro he; rw [he] at hk; simp at hk
    obtain ⟨q, hq⟩ := List.exists_mem_of_ne_nil _ hknn
    rcases maxIndexOpId_spec (st.pending.filter (fun r => r.index ≤ idx))
        minimumOpId with ⟨_, hall⟩ | ⟨hmem, _, _⟩
    · exfalso
      have h1 := hall q hq
      have h2 := (hb q (List.mem_filter.mp hq).1).1
      simp only [minimumOpId] at h1
      omega
    · simpa using (List.mem_filter.mp hmem).2

/-! ## C2: replaying an accepted UpdateConsensus request is a no-op -/

theorem markOps_noop (st : ReplicaState) (req : ConsensusRequest) (P' : OpId)
    (hp : P'.index ≤ st.lastReceived.index)
    (hmin : min P'.index req.committedIndex.index ≤ st.committed.index) :
    markOperationsAsCommitted st req ⟨P', []⟩ P' = Except.ok st := by
  unfold markOperationsAsCommitted
  dsimp only
  rw [if_neg (not_lt.mpr hp), List.getLast?_nil]
  dsimp only
  have hmin' := min_le_iff.mp hmin
  have hle : (if P'.index < req.committedIndex.index then P'
              else req.committedIndex).index ≤ st.committed.index := by
    split <;> rcases hmin' with h | h <;> omega
  rw [advance_noop hle]

theorem earlyCommit_noop (st : ReplicaState) (req : ConsensusRequest)
    (P' : OpId) (hinv : StateInv st)
    (hwfmin : opIdLe minimumOpId req.committedIndex)
    (hco : opIdCoherent req.committedIndex P')
    (hp : P'.index ≤ st.lastReceived.index)
    (hmin : min P'.index req.committedIndex.index ≤ st.committed.index)
    (hlast : st.pending ≠ [] →
      st.lastReceived = P' ∨
      (copyIfOpIdLessThan req.committedIndex
        (copyIfOpIdLessThan P' st.lastReceived)).index ≤ st.committed.index) :
    earlyCommit st req ⟨P', []⟩ = some st := by
  obtain ⟨hd, hb, hc, hcr, hemp, hne, hnn⟩ := hinv
  have hmin' := min_le_iff.mp hmin
  unfold earlyCommit
  dsimp only
  by_cases hpe : st.pending = []
  · have he0 : getLastPendingOperationOpId st = minimumOpId := by
      unfold getLastPendingOperationOpId
      rw [if_pos (by simp [hpe])]
    rw [he0]
    have hRC : st.lastReceived.index = st.committed.index := hemp hpe
    have hle : (copyIfOpIdLessThan req.committedIndex
        (copyIfOpIdLessThan P' minimumOpId)).index ≤ st.committed.index := by
      cases h1 : opIdLessThan P' minimumOpId with
      | true =>
        rw [copyIf_pos h1]
        cases h2 : opIdLessThan req.committedIndex P' with
        | true =>
          rw [copyIf_pos h2]
          have := coherent_lt_of_lex hco h2
          rcases hmin' with h | h <;> omega
        | false =>
          rw [copyIf_neg h2]
          omega
      | false =>
        rw [copyIf_neg h1]
        cases h2 : opIdLessThan req.committedIndex minimumOpId with
        | true =>
          exact absurd h2 (by rw [not_opIdLessThan_of_le hwfmin]; simp)
        | false =>
          rw [copyIf_neg h2]
          simpa [minimumOpId] using hnn
    rw [advance_noop hle]
    rfl
  · have hRp := hne hpe
    have he0 : getLastPendingOperationOpId st = st.lastReceived := by
      unfold getLastPendingOperationOpId
      rw [if_neg (by simp [hpe])]
      obtain ⟨q, hq⟩ := List.exists_mem_of_ne_nil _ hpe
      have hq1 := (hb q hq).1
      have hq2 := (hb q hq).2
      apply maxIndexOpId_eq hd hRp (fun r hr => (hb r hr).2)
      simp only [minimumOpId]
      omega
    rw [he0]
    rcases hlast hpe with hLP | hdone
    · rw [hLP]
      have hPgt : st.committed.index < P'.index := by
        have := (hb _ hRp).1
        rw [hLP] at this
        exact this
      have hciC : req.committedIndex.index ≤ st.committed.index := by
        rcases hmin' with h | h <;> omega
      have hlex : opIdLessThan req.committedIndex P' = true := hco.1 (by omega)
      rw [copyIf_neg (opIdLessThan_irrefl P'), copyIf_pos hlex]
      rw [advance_noop (by omega)]
      rfl
    · rw [advance_noop hdone]
      rfl

theorem markPhase_noop (st : ReplicaState) (req : ConsensusRequest)
    (P' : OpId) (hp : P'.index ≤ st.lastReceived.index)
    (hmin : min P'.index req.committedIndex.index ≤ st.committed.index) :
    markPhase st req ⟨P', []⟩
      = (st, UpdateOutcome.ok (fillResponseOK st none)) := by
  unfold markPhase
  rw [enqueuePrepares_nil]
  dsimp only
  rw [if_neg (by simp)]
  rw [List.getLast?_nil]
  dsimp only
  rw [markOps_noop st req P' hp hmin]

theorem commitPhase_noop (st : ReplicaState) (req : ConsensusRequest)
    (P' : OpId) (mp : Bool) (hinv : StateInv st)
    (hwfmin : opIdLe minimumOpId req.committedIndex)
    (hco : opIdCoherent req.committedIndex P')
    (hp : P'.index ≤ st.lastReceived.index)
    (hmin : min P'.index req.committedIndex.index ≤ st.committed.index)
    (hlast : st.pending ≠ [] →
      st.lastReceived = P' ∨
      (copyIfOpIdLessThan req.committedIndex
        (copyIfOpIdLessThan P' st.lastReceived)).index ≤ st.committed.index) :
    commitPhase st req ⟨P', []⟩ mp
      = (st, UpdateOutcome.ok (fillResponseOK st none)) := by
  unfold commitPhase
  rw [earlyCommit_noop st req P' hinv hwfmin hco hp hmin hlast]
  dsimp only
  rw [if_neg (by simp)]
  exact markPhase_noop st req P' hp hmin

theorem acceptLeaderPhase_noop (st : ReplicaState) (req : ConsensusRequest)
    (P' : OpId) (mp : Bool) (hinv : StateInv st)
    (hlead : st.leaderUuid = some req.callerUuid)
    (hwfmin : opIdLe minimumOpId req.committedIndex)
    (hco : opIdCoherent req.committedIndex P')
    (hp : P'.index ≤ st.lastReceived.index)
    (hmin : min P'.index req.committedIndex.index ≤ st.committed.index)
    (hlast : st.pending ≠ [] →
      st.lastReceived = P' ∨
      (copyIfOpIdLessThan req.committedIndex
        (copyIfOpIdLessThan P' st.lastReceived)).index ≤ st.committed.index) :
    acceptLeaderPhase st req ⟨P', []⟩ mp
      = (st, UpdateOutcome.ok (fillResponseOK st none)) := by
  unfold acceptLeaderPhase
  rw [hlead]
  dsimp only
  rw [if_pos rfl]
  exact commitPhase_noop st req P' mp hinv hwfmin hco hp hmin hlast

theorem logMatchPhase_noop (st : ReplicaState) (req : ConsensusRequest)
    (P' : OpId) (mp : Bool) (hinv : StateInv st)
    (hlm : (isOpCommittedOrPending st P').1 = true)
    (hlead : st.leaderUuid = some req.callerUuid)
    (hwfmin : opIdLe minimumOpId req.committedIndex)
    (hco : opIdCoherent req.committedIndex P')
    (hp : P'.index ≤ st.lastReceived.index)
    (hmin : min P'.index req.committedIndex.index ≤ st.committed.index)
    (hlast : st.pending ≠ [] →
      st.lastReceived = P' ∨
      (copyIfOpIdLessThan req.committedIndex
        (copyIfOpIdLessThan P' st.lastReceived)).index ≤ st.committed.index) :
    logMatchPhase st req ⟨P', []⟩ mp
      = (st, UpdateOutcome.ok (fillResponseOK st none)) := by
  unfold logMatchPhase
  dsimp only
  rw [if_neg (by rw [hlm]; simp)]
  exact acceptLeaderPhase_noop st req P' mp hinv hlead hwfmin hco hp hmin hlast

/-- The per-state conditions under which a further UpdateConsensus delivery
of `req` leaves the replica untouched: every op of the request is already
committed or exactly pending, the term and leader match, the advanced
preceding id is within the log, and neither commit step can move. -/
def ReplayStable (st : ReplicaState) (req : ConsensusRequest) : Prop :=
  st.currentTerm = req.callerTerm ∧
  st.leaderUuid = some req.callerUuid ∧
  (∀ op ∈ req.ops, op.index ≤ st.committed.index ∨ op ∈ st.pending) ∧
  (req.ops.getLast?.getD req.precedingId).index ≤ st.lastReceived.index ∧
  ((req.ops.getLast?.getD req.precedingId).index ≤ st.committed.index ∨
    req.ops.getLast?.getD req.precedingId ∈ st.pending) ∧
  min (req.ops.getLast?.getD req.precedingId).index req.committedIndex.index
    ≤ st.committed.index ∧
  (st.pending ≠ [] →
    st.lastReceived = req.ops.getLast?.getD req.precedingId ∨
    (copyIfOpIdLessThan req.committedIndex
      (copyIfOpIdLessThan (req.ops.getLast?.getD req.precedingId)
        st.lastReceived)).index ≤ st.committed.index)

theorem updateReplica_noop (st : ReplicaState) (req : ConsensusRequest)
    (mp : Bool) (hinv : StateInv st) (hwf : ReqWF req)
    (hstable : ReplayStable st req) :
    updateReplica st req mp
      = (st, UpdateOutcome.ok (fillResponseOK st none)) := by
  obtain ⟨hterm, hlead, hdrop, hp, hpcp, hmin, hlast⟩ := hstable
  have hdd : deduplicateLeaderRequest st req
      = ⟨req.ops.getLast?.getD req.precedingId, []⟩ := by
    unfold deduplicateLeaderRequest
    rw [dedupFold_dropAll st hinv.1 req.ops req.precedingId
      (fun op hop => by
        rcases hdrop op hop with h | h
        · exact Or.inl h
        · exact Or.inr ⟨h, (hinv.2.1 op h).2⟩)]
  have hlm : (isOpCommittedOrPending st
      (req.ops.getLast?.getD req.precedingId)).1 = true := by
    unfold isOpCommittedOrPending
    dsimp only
    rcases hpcp with h | h
    · rw [decide_eq_true h]
      simp
    · rw [lookupPending_of_mem hinv.1 h]
      simp
  have hco : opIdCoherent req.committedIndex
      (req.ops.getLast?.getD req.precedingId) :=
    hwf.2.1 _ (getLastD_mem req.ops req.precedingId)
  unfold updateReplica
  dsimp only
  rw [hdd]
  dsimp only
  rw [if_neg (by simp [checkSequence])]
  rw [if_neg (by omega)]
  rw [if_neg (by omega)]
  dsimp only
  exact logMatchPhase_noop st req _ mp hinv hlm hlead hwf.2.2.1 hco hp hmin hlast

theorem advance_fields {st : ReplicaState} {t : OpId} {st' : ReplicaState}
    {ch : Bool} (h : advanceCommittedIndex st t = some (st', ch)) :
    st'.currentTerm = st.currentTerm ∧ st'.leaderUuid = st.leaderUuid ∧
    st'.lastReceived = st.lastReceived ∧
    st'.lastReceivedCurLeader = st.lastReceivedCurLeader ∧
    st.committed.index ≤ st'.committed.index ∧
    (∀ r ∈ st'.pending, r ∈ st.pending) := by
  rcases advance_shape h with ⟨rfl, _, _⟩ | ⟨rfl, _, hlt, _⟩
  · exact ⟨rfl, rfl, rfl, rfl, le_refl _, fun r hr => hr⟩
  · exact ⟨rfl, rfl, rfl, rfl, by dsimp only; omega,
      fun r hr => (List.mem_filter.mp hr).1⟩

theorem inv_set_leader {st : ReplicaState} (hinv : StateInv st) (u : Nat) :
    StateInv { st with leaderUuid := some u } := by
  obtain ⟨hd, hb, hc, hcr, hemp, hne, hnn⟩ := hinv
  exact ⟨hd, hb, hc, hcr, hemp, hne, hnn⟩

theorem earlyCommit_advance {st : ReplicaState} {req : ConsensusRequest}
    {dd : LeaderRequestDedup} {st' : ReplicaState}
    (h : earlyCommit st req dd = some st') :
    ∃ ch, advanceCommittedIndex st (earlyCommitBound st req dd)
      = some (st', ch) := by
  have h' : Option.map Prod.fst
      (advanceCommittedIndex st (earlyCommitBound st req dd)) = some st' := by
    unfold earlyCommit at h
    exact h
  cases hadv : advanceCommittedIndex st (earlyCommitBound st req dd) with
  | none => rw [hadv] at h'; simp at h'
  | some p =>
    rw [hadv] at h'
    simp only [Option.map_some', Option.some.injEq] at h'
    obtain ⟨st'', ch⟩ := p
    exact ⟨ch, by rw [← h']⟩

theorem isOpCommittedOrPending_decode {st : ReplicaState} {p : OpId}
    (h : (isOpCommittedOrPending st p).1 = true) :
    p.index ≤ st.committed.index ∨ p ∈ st.pending := by
  unfold isOpCommittedOrPending at h
  dsimp only at h
  rw [Bool.or_eq_true] at h
  rcases h with h | h
  · exact Or.inl (by simpa using h)
  · cases hl : lookupPending st p.index with
    | none => rw [hl] at h; simp at h
    | some r =>
      rw [hl] at h
      simp only [decide_eq_true_eq] at h
      exact Or.inr (h ▸ (lookupPending_mem hl).1)

theorem getLastPending_eq_lastReceived {st : ReplicaState}
    (hinv : StateInv st) (hpe : st.pending ≠ []) :
    getLastPendingOperationOpId st = st.lastReceived := by
  obtain ⟨hd, hb, hc, hcr, hemp, hne, hnn⟩ := hinv
  unfold getLastPendingOperationOpId
  rw [if_neg (by simp [hpe])]
  obtain ⟨q, hq⟩ := List.exists_mem_of_ne_nil _ hpe
  have hq1 := (hb q hq).1
  have hq2 := (hb q hq).2
  apply maxIndexOpId_eq hd (hne hpe) (fun r hr => (hb r hr).2)
  simp only [minimumOpId]
  omega

/-- Appending a consecutive run of new messages to the pending map and
moving the last-received cursor to the run's last op preserves the state
invariant. -/
theorem inv_extend_msgs (st : ReplicaState) (m1 : OpId) (rest : List OpId)
    (L : OpId) (hinv : StateInv st)
    (hchi : List.Chain' (fun a b => b.index = a.index + 1) (m1 :: rest))
    (hpw : (m1 :: rest).Pairwise (fun a b => a.index < b.index))
    (hL : (m1 :: rest).getLast? = some L)
    (hpb : ∀ r ∈ st.pending, r.index < m1.index)
    (hcb : st.committed.index < m1.index)
    (hcomp : ∀ i : Int, st.committed.index < i → i < m1.index →
      ∃ r ∈ st.pending, r.index = i) :
    StateInv { st with pending := (m1 :: rest).reverse ++ st.pending,
                       lastReceived := L, lastReceivedCurLeader := L } := by
  obtain ⟨hd, hb, hc, hcr, hemp, hne, hnn⟩ := hinv
  have hcf := consec_facts rest m1 hchi
  have hcfL := hcf.2 L hL
  have hm1L : m1.index ≤ L.index := hcf.1 L (List.mem_of_mem_getLast? hL)
  refine ⟨?_, ?_, ?_, ?_, ?_, ?_, ?_⟩
  · dsimp only
    rw [List.pairwise_append]
    refine ⟨?_, hd, ?_⟩
    · rw [List.pairwise_reverse]
      exact hpw.imp (fun hab => ne_of_gt hab)
    · intro a ha b hb
      have h1 := hcf.1 a (List.mem_reverse.mp ha)
      have h2 := hpb b hb
      omega
  · intro r hr
    dsimp only at hr ⊢
    rcases List.mem_append.mp hr with hr | hr
    · have hr' := List.mem_reverse.mp hr
      have h1 := hcf.1 r hr'
      have h2 := hcfL.1 r hr'
      omega
    · have h1 := (hb r hr).1
      have h2 := hpb r hr
      omega
  · intro i hi1 hi2
    dsimp only at hi1 hi2 ⊢
    by_cases him : i < m1.index
    · obtain ⟨r, hr, hri⟩ := hcomp i hi1 him
      exact ⟨r, List.mem_append.mpr (Or.inr hr), hri⟩
    · obtain ⟨m, hm, hmi⟩ := hcfL.2 i (by omega) hi2
      exact ⟨m, List.mem_append.mpr (Or.inl (List.mem_reverse.mpr hm)), hmi⟩
  · dsimp only
    omega
  · intro hpe
    dsimp only at hpe
    exact absurd hpe (by simp)
  · intro _
    dsimp only
    exact List.mem_append.mpr
      (Or.inl (List.mem_reverse.mpr (List.mem_of_mem_getLast? hL)))
  · dsimp only
    exact hnn

/-- Successful mark phase on a nonempty deduplicated message list: the
resulting state extends the pending map with the messages, moves the
last-received cursors to the last message, advances the committed index by
exactly the min-bound, and preserves the invariant. -/
theorem markPhase_ok_nonempty (stD : ReplicaState) (req : ConsensusRequest)
    (P m1 : OpId) (rest : List OpId) (st1 : ReplicaState)
    (resp : ConsensusResponse)
    (hinvD : StateInv stD)
    (hch : List.Chain' (fun a b => a.term ≤ b.term ∧ b.index = a.index + 1)
      (P :: m1 :: rest))
    (hpb : ∀ r ∈ stD.pending, r.index < m1.index)
    (hcb : stD.committed.index < m1.index)
    (hcomp : ∀ i : Int, stD.committed.index < i → i < m1.index →
      ∃ r ∈ stD.pending, r.index = i)
    (h : markPhase stD req ⟨P, m1 :: rest⟩ = (st1, UpdateOutcome.ok resp)) :
    resp = fillResponseOK st1 none ∧
    StateInv st1 ∧
    st1.currentTerm = stD.currentTerm ∧
    st1.leaderUuid = stD.leaderUuid ∧
    ∃ L, (m1 :: rest).getLast? = some L ∧
      st1.lastReceived = L ∧
      st1.committed.index
        = max stD.committed.index (min L.index req.committedIndex.index) ∧
      (∀ m ∈ m1 :: rest, m.index ≤ st1.committed.index ∨ m ∈ st1.pending) ∧
      (∀ r ∈ stD.pending, r.index ≤ st1.committed.index ∨ r ∈ st1.pending) := by
  have hchm : List.Chain'
      (fun a b => a.term ≤ b.term ∧ b.index = a.index + 1) (m1 :: rest) :=
    hch.tail
  have hchi : List.Chain' (fun a b => b.index = a.index + 1) (m1 :: rest) :=
    hchm.imp (fun a b hab => hab.2)
  have hpw : (m1 :: rest).Pairwise (fun a b => a.index < b.index) :=
    chain_pairwise_lt hchm
  obtain ⟨L, hL⟩ : ∃ L, (m1 :: rest).getLast? = some L :=
    ⟨(m1 :: rest).getLast (by simp), List.getLast?_eq_getLast _ (by simp)⟩
  have hcf := consec_facts rest m1 hchi
  have hcfL := hcf.2 L hL
  have hm1L : m1.index ≤ L.index := hcf.1 L (List.mem_of_mem_getLast? hL)
  have henq : enqueuePrepares stD (m1 :: rest)
      = ({ stD with pending := (m1 :: rest).reverse ++ stD.pending },
         m1 :: rest) := by
    apply enqueuePrepares_success (m1 :: rest) stD hpw
    · intro m hm
      have := hcf.1 m hm
      omega
    · intro m hm r hr
      have h1 := hcf.1 m hm
      have h2 := hpb r hr
      omega
  have hinvM : StateInv
      { stD with pending := (m1 :: rest).reverse ++ stD.pending,
                 lastReceived := L, lastReceivedCurLeader := L } :=
    inv_extend_msgs stD m1 rest L hinvD hchi hpw hL hpb hcb hcomp
  unfold markPhase at h
  rw [henq] at h
  dsimp only at h
  rw [if_neg (by simp)] at h
  rw [hL] at h
  dsimp only at h
  unfold markOperationsAsCommitted at h
  dsimp only at h
  rw [hL] at h
  dsimp only at h
  unfold updateLastReceivedOpId at h
  dsimp only at h
  cases hadv : advanceCommittedIndex
      { stD with pending := (m1 :: rest).reverse ++ stD.pending,
                 lastReceived := L, lastReceivedCurLeader := L }
      (if L.index < req.committedIndex.index then L
       else req.committedIndex) with
  | none =>
    rw [hadv] at h
    exact absurd h (by simp)
  | some p =>
    obtain ⟨st1', ch⟩ := p
    rw [hadv] at h
    dsimp only at h
    rw [Prod.mk.injEq] at h
    obtain ⟨h1, h2⟩ := h
    subst h1
    simp only [UpdateOutcome.ok.injEq] at h2
    have hfields := advance_fields hadv
    have hcomm := advanceCommittedIndex_committed hadv
    have hmin : (if L.index < req.committedIndex.index then L
        else req.committedIndex).index
        = min L.index req.committedIndex.index := by
      split <;> omega
    refine ⟨h2.symm, advance_inv hinvM hadv, ?_, ?_, L, hL, ?_, ?_, ?_⟩
    · rw [hcomm.2.1]
    · rw [hfields.2.1]
    · rw [hfields.2.2.1]
    · rw [hcomm.1, hmin]
    · constructor
      · intro m hm
        rcases advance_pending_fate hadv
            (List.mem_append.mpr (Or.inl (List.mem_reverse.mpr hm))) with
          hf | hf
        · exact Or.inr hf
        · exact Or.inl hf
      · intro r hr
        rcases advance_pending_fate hadv
            (List.mem_append.mpr (Or.inr hr)) with hf | hf
        · exact Or.inr hf
        · exact Or.inl hf

/-- Successful mark phase with no deduplicated messages: the preceding id is
checked against the last-received cursor and the committed index advances by
at most the min-bound; nothing else changes. -/
theorem markPhase_ok_empty (stD : ReplicaState) (req : ConsensusRequest)
    (P : OpId) (st1 : ReplicaState) (resp : ConsensusResponse)
    (hinvD : StateInv stD)
    (h : markPhase stD req ⟨P, []⟩ = (st1, UpdateOutcome.ok resp)) :
    resp = fillResponseOK st1 none ∧
    StateInv st1 ∧
    st1.currentTerm = stD.currentTerm ∧
    st1.leaderUuid = stD.leaderUuid ∧
    st1.lastReceived = stD.lastReceived ∧
    P.index ≤ stD.lastReceived.index ∧
    st1.committed.index
      = max stD.committed.index (min P.index req.committedIndex.index) ∧
    (∀ r ∈ stD.pending, r.index ≤ st1.committed.index ∨ r ∈ st1.pending) ∧
    (∀ r ∈ st1.pending, r ∈ stD.pending) := by
  unfold markPhase at h
  rw [enqueuePrepares_nil] at h
  dsimp only at h
  rw [if_neg (by simp)] at h
  unfold markOperationsAsCommitted at h
  dsimp only at h
  rw [List.getLast?_nil] at h
  dsimp only at h
  by_cases hple : stD.lastReceived.index < P.index
  · rw [if_pos hple] at h
    exact absurd h (by simp)
  · rw [if_neg hple] at h
    dsimp only at h
    cases hadv : advanceCommittedIndex stD
        (if P.index < req.committedIndex.index then P
         else req.committedIndex) with
    | none =>
      rw [hadv] at h
      exact absurd h (by simp)
    | some p =>
      obtain ⟨st1', ch⟩ := p
      rw [hadv] at h
      dsimp only at h
      rw [Prod.mk.injEq] at h
      obtain ⟨h1, h2⟩ := h
      subst h1
      simp only [UpdateOutcome.ok.injEq] at h2
      have hfields := advance_fields hadv
      have hcomm := advanceCommittedIndex_committed hadv
      have hminP : (if P.index < req.committedIndex.index then P
          else req.committedIndex).index
          = min P.index req.committedIndex.index := by
        split <;> omega
      refine ⟨h2.symm, advance_inv hinvD hadv, hcomm.2.1, hfields.2.1,
        hfields.2.2.1, not_lt.mp hple, ?_, ?_, hfields.2.2.2.2.2⟩
      · rw [hcomm.1, hminP]
      · intro r hr
        rcases advance_pending_fate hadv hr with hf | hf
        · exact Or.inr hf
        · exact Or.inl hf

/-- A successful commit phase factors into the early-commit advance and the
mark phase. -/
theorem commitPhase_ok (stC : ReplicaState) (req : ConsensusRequest)
    (dd : LeaderRequestDedup) (mp : Bool) (st1 : ReplicaState)
    (resp : ConsensusResponse)
    (h : commitPhase stC req dd mp = (st1, UpdateOutcome.ok resp)) :
    ∃ stD ch, advanceCommittedIndex stC (earlyCommitBound stC req dd)
        = some (stD, ch) ∧
      markPhase stD req dd = (st1, UpdateOutcome.ok resp) := by
  unfold commitPhase at h
  cases hec : earlyCommit stC req dd with
  | none =>
    rw [hec] at h
    exact absurd h (by simp)
  | some stD =>
    rw [hec] at h
    dsimp only at h
    by_cases hmp : ¬ dd.messages.isEmpty = true ∧ mp = true
    · rw [if_pos hmp] at h
      exact absurd h (by simp)
    · rw [if_neg hmp] at h
      obtain ⟨ch, hadv⟩ := earlyCommit_advance hec
      exact ⟨stD, ch, hadv, h⟩

/-- A successful leader-acceptance phase yields a state whose leader uuid is
the caller, unchanged elsewhere. -/
theorem acceptLeaderPhase_ok (stB : ReplicaState) (req : ConsensusRequest)
    (dd : LeaderRequestDedup) (mp : Bool) (st1 : ReplicaState)
    (resp : ConsensusResponse)
    (h : acceptLeaderPhase stB req dd mp = (st1, UpdateOutcome.ok resp)) :
    ∃ stC, stC.leaderUuid = some req.callerUuid ∧
      stC.currentTerm = stB.currentTerm ∧
      stC.pending = stB.pending ∧
      stC.lastReceived = stB.lastReceived ∧
      stC.committed = stB.committed ∧
      (StateInv stB → StateInv stC) ∧
      commitPhase stC req dd mp = (st1, UpdateOutcome.ok resp) := by
  unfold acceptLeaderPhase at h
  cases hlu : stB.leaderUuid with
  | none =>
    rw [hlu] at h
    dsimp only at h
    exact ⟨{ stB with leaderUuid := some req.callerUuid }, rfl, rfl, rfl, rfl,
      rfl, fun hi => inv_set_leader hi _, h⟩
  | some u =>
    rw [hlu] at h
    dsimp only at h
    by_cases hu : u = req.callerUuid
    · rw [if_pos hu] at h
      dsimp only at h
      exact ⟨stB, by rw [hlu, hu], rfl, rfl, rfl, rfl, fun hi => hi, h⟩
    · rw [if_neg hu] at h
      exact absurd h (by simp)

theorem opId_ext {a b : OpId} (h1 : a.term = b.term)
    (h2 : a.index = b.index) : a = b := by
  obtain ⟨t1, i1⟩ := a
  obtain ⟨t2, i2⟩ := b
  dsimp only at h1 h2
  rw [h1, h2]

/-- A successful log-matching phase: the preceding id is committed or
pending, and the resulting state keeps only pending ops strictly below the
first deduplicated message (aborting conflicting ones), preserving the
invariant and the completeness of the window below that message. -/
theorem logMatchPhase_ok (stA : ReplicaState) (req : ConsensusRequest)
    (P : OpId) (msgs : List OpId) (mp : Bool) (st1 : ReplicaState)
    (resp : ConsensusResponse)
    (hinvA : StateInv stA)
    (hhead : ∀ m1, msgs.head? = some m1 →
      ¬ m1.index ≤ stA.committed.index ∧
      (stA.lastReceived.index < m1.index ∨
       (m1.index ≤ stA.lastReceived.index ∧
        lookupPending stA m1.index ≠ some m1)))
    (hm1P : ∀ m1, msgs.head? = some m1 → m1.index = P.index + 1)
    (h : logMatchPhase stA req ⟨P, msgs⟩ mp = (st1, UpdateOutcome.ok resp))
    (herr : resp.error = none) :
    (P.index ≤ stA.committed.index ∨ P ∈ stA.pending) ∧
    ∃ stB, StateInv stB ∧
      stB.currentTerm = stA.currentTerm ∧
      stB.committed = stA.committed ∧
      (msgs = [] → stB = stA) ∧
      (∀ m1, msgs.head? = some m1 →
        (∀ r ∈ stB.pending, r.index < m1.index) ∧
        stB.lastReceived.index ≤ P.index ∧
        (∀ i : Int, stB.committed.index < i → i < m1.index →
          ∃ r ∈ stB.pending, r.index = i) ∧
        (∀ op ∈ stA.pending, op.index ≤ P.index → op ∈ stB.pending)) ∧
      acceptLeaderPhase stB req ⟨P, msgs⟩ mp
        = (st1, UpdateOutcome.ok resp) := by
  unfold logMatchPhase at h
  dsimp only at h
  cases hlm : (isOpCommittedOrPending stA P).1 with
  | false =>
    rw [hlm] at h
    rw [if_pos (by simp)] at h
    rw [Prod.mk.injEq] at h
    obtain ⟨_, h2⟩ := h
    simp only [UpdateOutcome.ok.injEq] at h2
    rw [← h2] at herr
    simp [fillResponseOK] at herr
  | true =>
    rw [hlm] at h
    rw [if_neg (by simp)] at h
    have hPd := isOpCommittedOrPending_decode hlm
    cases msgs with
    | nil =>
      exact ⟨hPd, stA, hinvA, rfl, rfl, fun _ => rfl,
        fun m1 hm1 => absurd hm1 (by simp), h⟩
    | cons m1 rest =>
      rw [List.head?_cons] at h
      dsimp only at h
      obtain ⟨hm1c, hcase⟩ := hhead m1 rfl
      have hm1i := hm1P m1 rfl
      cases hfc1 : (isOpCommittedOrPending stA m1).1 with
      | true =>
        rw [hfc1] at h
        rw [if_pos (by simp)] at h
        exact absurd h (by simp)
      | false =>
        rw [hfc1] at h
        rw [if_neg (by simp)] at h
        dsimp only at h
        rcases hcase with hRlt | ⟨hRge, hlookne⟩
        · have hlook : lookupPending stA m1.index = none := by
            unfold lookupPending
            rw [List.find?_eq_none]
            intro r hr
            have := (hinvA.2.1 r hr).2
            simp
            omega
          have hfc2 : (isOpCommittedOrPending stA m1).2 = false := by
            unfold isOpCommittedOrPending
            dsimp only
            rw [hlook]
          rw [hfc2] at h
          rw [if_neg (by simp)] at h
          refine ⟨hPd, stA, hinvA, rfl, rfl,
            fun he => absurd he (by simp), ?_, h⟩
          intro m1' hm1'
          have hm1'e : m1' = m1 := by simpa using hm1'.symm
          subst hm1'e
          refine ⟨?_, by omega, ?_, fun op hop _ => hop⟩
          · intro r hr
            have := (hinvA.2.1 r hr).2
            omega
          · intro i hi1 hi2
            rcases hPd with hPc | hPp
            · omega
            · have hPR := (hinvA.2.1 P hPp).2
              exact hinvA.2.2.1 i hi1 (by omega)
        · obtain ⟨r, hr, hri⟩ := hinvA.2.2.1 m1.index (by omega) hRge
          have hlookr : lookupPending stA m1.index = some r := by
            rw [← hri]
            exact lookupPending_of_mem hinvA.1 hr
          have hrne : r ≠ m1 := fun he => hlookne (by rw [hlookr, he])
          have hrterm : ¬ r.term = m1.term :=
            fun he => hrne (opId_ext he hri)
          have hfc2 : (isOpCommittedOrPending stA m1).2 = true := by
            unfold isOpCommittedOrPending
            dsimp only
            rw [hlookr]
            simp [hrterm]
          rw [hfc2] at h
          rw [if_pos rfl] at h
          have hCP : stA.committed.index ≤ P.index := by omega
          refine ⟨hPd, abortOpsAfter stA P.index, abort_inv hinvA P.index,
            rfl, rfl, fun he => absurd he (by simp), ?_, h⟩
          intro m1' hm1'
          have hm1'e : m1' = m1 := by simpa using hm1'.symm
          subst hm1'e
          refine ⟨?_, abort_lastReceived_le hinvA hCP, ?_, ?_⟩
          · intro q hq
            have hq' : q.index ≤ P.index := by
              have : q ∈ stA.pending.filter (fun r => r.index ≤ P.index) := hq
              have := List.mem_filter.mp this
              simpa using this.2
            omega
          · intro i hi1 hi2
            rcases hPd with hPc | hPp
            · exfalso
              have hcc : (abortOpsAfter stA P.index).committed.index
                  = stA.committed.index := rfl
              omega
            · have hPR := (hinvA.2.1 P hPp).2
              have hcc : (abortOpsAfter stA P.index).committed
                  = stA.committed := rfl
              rw [hcc] at hi1
              obtain ⟨q, hq, hqi⟩ := hinvA.2.2.1 i hi1 (by omega)
              refine ⟨q, ?_, hqi⟩
              show q ∈ stA.pending.filter (fun r => r.index ≤ P.index)
              exact List.mem_filter.mpr ⟨hq, by simp; omega⟩
          · intro op hop hople
            show op ∈ stA.pending.filter (fun r => r.index ≤ P.index)
            exact List.mem_filter.mpr ⟨hop, by simp; omega⟩

/-- A first successful UpdateReplica call (OK status, no response error) on
an invariant-satisfying follower leaves the replica in a state that is
replay-stable for the same request, with the response read off the final
state. -/
theorem updateReplica_ok_stable (st0 : ReplicaState) (req : ConsensusRequest)
    (mp : Bool) (st1 : ReplicaState) (resp : ConsensusResponse)
    (hinv : StateInv st0) (hwf : ReqWF req)
    (h : updateReplica st0 req mp = (st1, UpdateOutcome.ok resp))
    (herr : resp.error = none) :
    resp = fillResponseOK st1 none ∧ StateInv st1 ∧ ReplayStable st1 req := by
  have hpwops : (req.precedingId :: req.ops).Pairwise
      (fun a b => a.index < b.index) := chain_pairwise_lt hwf.1
  obtain ⟨k, hk, hmsg, hprec, htake, hhead⟩ :=
    dedupFold_run st0 req.ops req.precedingId hpwops
  have hdd : deduplicateLeaderRequest st0 req
      = ⟨(req.ops.take k).getLast?.getD req.precedingId, req.ops.drop k⟩ := by
    unfold deduplicateLeaderRequest
    dsimp only
    rw [hprec, hmsg]
  have hPcons : ((req.ops.take k).getLast?.getD req.precedingId)
      :: req.ops.drop k = (req.precedingId :: req.ops).drop k :=
    takeLast_cons_drop req.ops req.precedingId k hk
  have hchP : List.Chain' (fun a b => a.term ≤ b.term ∧ b.index = a.index + 1)
      (((req.ops.take k).getLast?.getD req.precedingId) :: req.ops.drop k) := by
    rw [hPcons]
    exact chain'_drop k _ hwf.1
  have hcs : checkSequence ((req.ops.take k).getLast?.getD req.precedingId)
      (req.ops.drop k) = true :=
    checkSequence_of_chain _ _ hchP
  unfold updateReplica at h
  dsimp only at h
  rw [hdd] at h
  dsimp only at h
  rw [if_neg (not_not_intro hcs)] at h
  by_cases hct : req.callerTerm < st0.currentTerm
  · rw [if_pos hct] at h
    rw [Prod.mk.injEq] at h
    obtain ⟨_, h2⟩ := h
    simp only [UpdateOutcome.ok.injEq] at h2
    rw [← h2] at herr
    simp [fillResponseOK] at herr
  · rw [if_neg hct] at h
    obtain ⟨stA, hA, hinvA, hAterm, hApend, hAlastR, hAcomm⟩ :
        ∃ stA, logMatchPhase stA req
            ⟨(req.ops.take k).getLast?.getD req.precedingId,
             req.ops.drop k⟩ mp = (st1, UpdateOutcome.ok resp) ∧
          StateInv stA ∧ stA.currentTerm = req.callerTerm ∧
          stA.pending = st0.pending ∧
          stA.lastReceived = st0.lastReceived ∧
          stA.committed = st0.committed := by
      by_cases hlt : st0.currentTerm < req.callerTerm
      · rw [if_pos hlt] at h
        unfold handleTermAdvance at h
        rw [if_neg (by omega)] at h
        dsimp only at h
        unfold setCurrentTerm at h
        refine ⟨_, h, ?_, rfl, rfl, rfl, rfl⟩
        obtain ⟨hd, hb, hc, hcr, hemp, hne, hnn⟩ := hinv
        exact ⟨hd, hb, hc, hcr, hemp, hne, hnn⟩
      · rw [if_neg hlt] at h
        dsimp only at h
        exact ⟨st0, h, hinv, by omega, rfl, rfl, rfl⟩
    have hlookA : ∀ i, lookupPending stA i = lookupPending st0 i := by
      intro i
      unfold lookupPending
      rw [hApend]
    have hheadA : ∀ m1, (req.ops.drop k).head? = some m1 →
        ¬ m1.index ≤ stA.committed.index ∧
        (stA.lastReceived.index < m1.index ∨
         (m1.index ≤ stA.lastReceived.index ∧
          lookupPending stA m1.index ≠ some m1)) := by
      intro m1 hm1
      rw [hAcomm, hAlastR, hlookA]
      exact hhead m1 hm1
    have hm1P : ∀ m1, (req.ops.drop k).head? = some m1 →
        m1.index = ((req.ops.take k).getLast?.getD req.precedingId).index
          + 1 := by
      intro m1 hm1
      cases hdk : req.ops.drop k with
      | nil => rw [hdk] at hm1; simp at hm1
      | cons x t =>
        rw [hdk] at hm1
        have hx : x = m1 := by simpa using hm1
        have hch' := hchP
        rw [hdk] at hch'
        have := (List.chain'_cons.mp hch').1
        rw [hx] at this
        exact this.2
    obtain ⟨hPd, stB, hinvB, hBterm, hBcomm, hBnil, hBhead, hB⟩ :=
      logMatchPhase_ok stA req _ _ mp st1 resp hinvA hheadA hm1P hA herr
    obtain ⟨stC, hClead, hCterm, hCpend, hClastR, hCcomm, hCinv, hC⟩ :=
      acceptLeaderPhase_ok stB req _ mp st1 resp hB
    have hinvC : StateInv stC := hCinv hinvB
    obtain ⟨stD, ch, hadvD, hD⟩ := commitPhase_ok stC req _ mp st1 resp hC
    have hDfields := advance_fields hadvD
    have hDcomm := advanceCommittedIndex_committed hadvD
    cases hdk : req.ops.drop k with
    | nil =>
      rw [hdk] at hD
      have hkl : k = req.ops.length := by
        have := List.drop_eq_nil_iff.mp hdk
        omega
      have hPP : (req.ops.take k).getLast?.getD req.precedingId
          = req.ops.getLast?.getD req.precedingId := by
        rw [hkl, List.take_length]
      obtain ⟨hresp, hinv1, h1term, h1lead, h1lastR, hPle, h1comm, hfate,
        h1sub⟩ := markPhase_ok_empty stD req _ st1 resp
          (advance_inv hinvC hadvD) hD
      have hBA : stB = stA := hBnil (by rw [hdk])
      have hfate0 : ∀ op ∈ st0.pending,
          op.index ≤ st1.committed.index ∨ op ∈ st1.pending := by
        intro op hop
        have hopC : op ∈ stC.pending := by
          rw [hCpend, hBA, hApend]
          exact hop
        rcases advance_pending_fate hadvD hopC with hf | hf
        · rcases hfate op hf with hf' | hf'
          · exact Or.inl hf'
          · exact Or.inr hf'
        · refine Or.inl ?_
          have : stD.committed.index ≤ st1.committed.index := by
            rw [h1comm]; omega
          omega
      refine ⟨hresp, hinv1, ?_, ?_, ?_, ?_, ?_, ?_, ?_⟩
      · rw [h1term, hDfields.1, hCterm, hBterm, hAterm]
      · rw [h1lead, hDfields.2.1, hClead]
      · intro op hop
        have hop' : op ∈ req.ops.take k := by
          rw [hkl, List.take_length]
          exact hop
        rcases htake op hop' with hle | hmem
        · refine Or.inl ?_
          have hc1 : st0.committed.index ≤ st1.committed.index := by
            have h2 : stC.committed.index ≤ stD.committed.index :=
              hDfields.2.2.2.2.1
            have h3 : stD.committed.index ≤ st1.committed.index := by
              rw [h1comm]; omega
            rw [hCcomm, hBcomm, hAcomm] at h2
            omega
          omega
        · exact hfate0 op hmem
      · rw [← hPP, h1lastR, hDfields.2.2.1, hClastR, hBA, hAlastR]
        rw [hDfields.2.2.1, hClastR, hBA, hAlastR] at hPle
        exact hPle
      · rw [← hPP]
        rcases hPd with hle | hmem
        · refine Or.inl ?_
          have hc1 : stA.committed.index ≤ st1.committed.index := by
            have h2 : stC.committed.index ≤ stD.committed.index :=
              hDfields.2.2.2.2.1
            have h3 : stD.committed.index ≤ st1.committed.index := by
              rw [h1comm]; omega
            rw [hCcomm, hBcomm] at h2
            omega
          omega
        · apply hfate0
          rw [← hApend]
          exact hmem
      · rw [← hPP, h1comm]
        omega
      · intro hpne
        refine Or.inr ?_
        have hpC : stC.pending ≠ [] := by
          intro he
          apply hpne
          have : ∀ r ∈ st1.pending, False := by
            intro r hr
            have h2 := hDfields.2.2.2.2.2 r (h1sub r hr)
            rw [he] at h2
            simp at h2
          cases hp1 : st1.pending with
          | nil => rfl
          | cons a l => exact absurd (hp1 ▸ List.mem_cons_self a l) (by
              intro hm
              exact this a (by rw [hp1]; exact List.mem_cons_self a l))
        have hgl : getLastPendingOperationOpId stC = stC.lastReceived :=
          getLastPending_eq_lastReceived hinvC hpC
        have hR1 : st1.lastReceived = stC.lastReceived := by
          rw [h1lastR, hDfields.2.2.1]
        have hEB : earlyCommitBound stC req
            ⟨(req.ops.take k).getLast?.getD req.precedingId, req.ops.drop k⟩
            = copyIfOpIdLessThan req.committedIndex
                (copyIfOpIdLessThan
                  (req.ops.getLast?.getD req.precedingId) st1.lastReceived) := by
          unfold earlyCommitBound
          dsimp only
          rw [hgl, hPP, hR1]
        have hEBle : (earlyCommitBound stC req
            ⟨(req.ops.take k).getLast?.getD req.precedingId,
             req.ops.drop k⟩).index ≤ st1.committed.index := by
          have h2 : stD.committed.index ≤ st1.committed.index := by
            rw [h1comm]; omega
          rw [hDcomm.1] at h2
          omega
        rw [hEB] at hEBle
        exact hEBle
    | cons m1 rest =>
      rw [hdk] at hD
      have hch' := hchP
      rw [hdk] at hch'
      have hm1i : m1.index
          = ((req.ops.take k).getLast?.getD req.precedingId).index + 1 :=
        hm1P m1 (by rw [hdk]; rfl)
      obtain ⟨hpbB, hRB, hcompB, hkeepB⟩ := hBhead m1 (by rw [hdk]; rfl)
      have hpbC : ∀ r ∈ stC.pending, r.index < m1.index := by
        intro r hr
        rw [hCpend] at hr
        exact hpbB r hr
      have hcbC : stC.committed.index < m1.index := by
        have h0 := (hhead m1 (by rw [hdk]; rfl)).1
        rw [hCcomm, hBcomm, hAcomm]
        omega
      have hpbD : ∀ r ∈ stD.pending, r.index < m1.index := by
        intro r hr
        exact hpbC r (hDfields.2.2.2.2.2 r hr)
      have hcbD : stD.committed.index < m1.index := by
        rcases advance_shape hadvD with ⟨he, _, hle⟩ | ⟨he, _, hlt, hall⟩
        · rw [he]
          exact hcbC
        · by_contra hge
          push_neg at hge
          have heidx : stD.committed.index
              = (earlyCommitBound stC req
                  ⟨(req.ops.take k).getLast?.getD req.precedingId,
                   req.ops.drop k⟩).index := by
            rw [he]
          obtain ⟨r, hr, hri⟩ := lookupPending_isSome_exists
            (allIndexesPending_spec hall m1.index hcbC (by omega))
          have := hpbC r hr
          omega
      have hcompD : ∀ i : Int, stD.committed.index < i → i < m1.index →
          ∃ r ∈ stD.pending, r.index = i := by
        intro i hi1 hi2
        have hi1C : stC.committed.index < i := by
          have := hDfields.2.2.2.2.1
          omega
        obtain ⟨r, hr, hri⟩ := hcompB i (by rw [hCcomm] at hi1C; exact hi1C)
          hi2
        have hrC : r ∈ stC.pending := by rw [hCpend]; exact hr
        rcases advance_shape hadvD with ⟨he, _, _⟩ | ⟨he, _, _, _⟩
        · rw [he]
          exact ⟨r, hrC, hri⟩
        · refine ⟨r, ?_, hri⟩
          rw [he]
          dsimp only
          refine List.mem_filter.mpr ⟨hrC, ?_⟩
          have : stD.committed.index
              = (earlyCommitBound stC req
                  ⟨(req.ops.take k).getLast?.getD req.precedingId,
                   req.ops.drop k⟩).index := by
            rw [he]
          simp
          omega
      obtain ⟨hresp, hinv1, h1term, h1lead, L, hL, h1lastR, h1comm, hfmsg,
        hfold⟩ := markPhase_ok_nonempty stD req _ m1 rest st1 resp
          (advance_inv hinvC hadvD) hch' hpbD hcbD hcompD hD
      have hopsne : req.ops ≠ [] := by
        intro he
        rw [he] at hdk
        simp at hdk
      have hPL : req.ops.getLast?.getD req.precedingId = L := by
        have h1 : req.ops.getLast? = (req.ops.drop k).getLast? := by
          conv_lhs => rw [← List.take_append_drop k req.ops]
          rw [List.getLast?_append_of_ne_nil _ (by rw [hdk]; simp)]
        rw [h1, hdk, hL]
        rfl
      have hfate0 : ∀ op ∈ st0.pending, op.index ≤
          ((req.ops.take k).getLast?.getD req.precedingId).index →
          op.index ≤ st1.committed.index ∨ op ∈ st1.pending := by
        intro op hop hople
        have hopB : op ∈ stB.pending := by
          apply hkeepB
          · rw [hApend]
            exact hop
          · exact hople
        have hopC : op ∈ stC.pending := by
          rw [hCpend]
          exact hopB
        rcases advance_pending_fate hadvD hopC with hf | hf
        · rcases hfold op hf with hf' | hf'
          · exact Or.inl hf'
          · exact Or.inr hf'
        · refine Or.inl ?_
          have : stD.committed.index ≤ st1.committed.index := by
            rw [h1comm]; omega
          omega
      refine ⟨hresp, hinv1, ?_, ?_, ?_, ?_, ?_, ?_, ?_⟩
      · rw [h1term, hDfields.1, hCterm, hBterm, hAterm]
      · rw [h1lead, hDfields.2.1, hClead]
      · intro op hop
        rw [← List.take_append_drop k req.ops] at hop
        rcases List.mem_append.mp hop with hop' | hop'
        · rcases htake op hop' with hle | hmem
          · refine Or.inl ?_
            have hc1 : st0.committed.index ≤ st1.committed.index := by
              have h2 : stC.committed.index ≤ stD.committed.index :=
                hDfields.2.2.2.2.1
              have h3 : stD.committed.index ≤ st1.committed.index := by
                rw [h1comm]; omega
              rw [hCcomm, hBcomm, hAcomm] at h2
              omega
            omega
          · apply hfate0 op hmem
            have hpw' : req.ops.Pairwise (fun a b => a.index < b.index) :=
              hpwops.of_cons
            rw [← List.take_append_drop k req.ops] at hpw'
            have hcross := (List.pairwise_append.mp hpw').2.2
            have := hcross op hop' m1 (by rw [hdk]; simp)
            omega
        · rw [hdk] at hop'
          rcases hfmsg op hop' with hf | hf
          · exact Or.inl hf
          · exact Or.inr hf
      · rw [hPL, h1lastR]
      · rw [hPL]
        rcases hfmsg L (List.mem_of_mem_getLast? hL) with hf | hf
        · exact Or.inl hf
        · exact Or.inr hf
      · rw [hPL, h1comm]
        have hLL : L.index = m1.index + rest.length - 1 + 0 ∨ True := Or.inr
          trivial
        omega
      · intro _
        refine Or.inl ?_
        rw [h1lastR, hPL]

/-- C2: processing the same UpdateConsensus request twice on a follower is
idempotent.  If a well-formed leader request (ReqWF: consecutive op ids
following the preceding id, committed index coherent with them) is accepted
by a follower whose consensus state satisfies the pending-map invariant
(StateInv), producing an OK response with no error status, then delivering
the exact same request again — under any memory-pressure condition — returns
the same response and leaves the replica state completely unchanged: the
dedup pass drops every op as already committed or exactly pending, and
neither commit step can advance. -/
theorem updateConsensus_idempotent (st0 st1 : ReplicaState)
    (req : ConsensusRequest) (mp mp' : Bool) (resp : ConsensusResponse)
    (hinv : StateInv st0) (hwf : ReqWF req)
    (h1 : updateReplica st0 req mp = (st1, UpdateOutcome.ok resp))
    (herr : resp.error = none) :
    updateReplica st1 req mp' = (st1, UpdateOutcome.ok resp) := by
  obtain ⟨hresp, hinv1, hstable⟩ :=
    updateReplica_ok_stable st0 req mp st1 resp hinv hwf h1 herr
  rw [updateReplica_noop st1 req mp' hinv1 hwf hstable, hresp]

/-- Witness for C2: a follower at term 2 with pending op (2,3), committed
(2,2), receiving ops (2,4),(2,5) after preceding id (2,3) with leader commit
(2,4); the second delivery of the same request is the identity on the
resulting state. -/
theorem updateConsensus_idempotent_witness :
    updateReplica
      { currentTerm := 2, votedFor := none, role := Role.follower,
        leaderUuid := some 7, nextIndex := 0,
        pending := [⟨2, 5⟩], lastReceived := ⟨2, 5⟩,
        lastReceivedCurLeader := ⟨2, 5⟩, committed := ⟨2, 4⟩ }
      { callerUuid := 7, callerTerm := 2, precedingId := ⟨2, 3⟩,
        ops := [⟨2, 4⟩, ⟨2, 5⟩], committedIndex := ⟨2, 4⟩ } true
      = ({ currentTerm := 2, votedFor := none, role := Role.follower,
           leaderUuid := some 7, nextIndex := 0,
           pending := [⟨2, 5⟩], lastReceived := ⟨2, 5⟩,
           lastReceivedCurLeader := ⟨2, 5⟩, committed := ⟨2, 4⟩ },
         UpdateOutcome.ok ⟨2, ⟨2, 5⟩, ⟨2, 5⟩, 4, none⟩) :=
  updateConsensus_idempotent
    { currentTerm := 2, votedFor := none, role := Role.follower,
      leaderUuid := some 7, nextIndex := 0,
      pending := [⟨2, 3⟩], lastReceived := ⟨2, 3⟩,
      lastReceivedCurLeader := ⟨2, 3⟩, committed := ⟨2, 2⟩ }
    { currentTerm := 2, votedFor := none, role := Role.follower,
      leaderUuid := some 7, nextIndex := 0,
      pending := [⟨2, 5⟩], lastReceived := ⟨2, 5⟩,
      lastReceivedCurLeader := ⟨2, 5⟩, committed := ⟨2, 4⟩ }
    { callerUuid := 7, callerTerm := 2, precedingId := ⟨2, 3⟩,
      ops := [⟨2, 4⟩, ⟨2, 5⟩], committedIndex := ⟨2, 4⟩ }
    false true ⟨2, ⟨2, 5⟩, ⟨2, 5⟩, 4, none⟩
    ⟨by decide, by decide,
     fun i h1 h2 => ⟨⟨2, 3⟩, by decide, by dsimp only at h1 h2 ⊢; omega⟩,
     by decide, by decide, by decide, by decide⟩
    ⟨List.chain'_cons.mpr ⟨by decide, List.chain'_cons.mpr
       ⟨by decide, List.chain'_singleton _⟩⟩,
     by decide, by decide, by decide⟩
    (by decide)
    rfl

end YB
